import Mathlib

/-!
Shallow embedding of the index-scan executor of
components/tidb_query_vec_executors/src/index_scan_executor.rs: the
layout classification of index values, the per-column extraction into
the column batch, the integer/common handle decoding, the executor
facade's construction-time validation, and the column-vector
construction.

Byte strings are lists of naturals (each byte is below 256 in real
data).  Rust computations that mutate the column batch in place are
modelled by explicitly returning the updated batch together with a
status that is either ok, a recoverable decode error (Rust Err), or a
fatal abort (a Rust panic, such as an out-of-bounds slice).  External
collaborators that live outside the excerpted sources (the codec
crate's number reads, the datum module, the table-key constants, and
the row-format decoder) are modelled from the spec, as marked on each
such definition.
-/

namespace IndexScan

/-- Byte strings, the raw key and value material of the scan. -/
abbrev Bytes := List Nat

/-- Outcome of a Rust statement acting on mutable state: success, a
recoverable decode error (Rust Err), or a fatal abort (a Rust panic,
such as an out-of-bounds slice or index). -/
inductive RStatus where
  | ok : RStatus
  | err : String → RStatus
  | fatal : String → RStatus
deriving DecidableEq, Repr

/-- Whether a status is a recoverable decode error. -/
def RStatus.isDecodeErr : RStatus → Bool
  | .err _ => true
  | _ => false

/-- Whether a status is a fatal abort (a Rust panic). -/
def RStatus.isFatal : RStatus → Bool
  | .fatal _ => true
  | _ => false

/-- Result of a Rust expression: a value, a recoverable decode error,
or a fatal abort (a Rust panic). -/
inductive RRes (α : Type) where
  | ok : α → RRes α
  | err : String → RRes α
  | fatal : String → RRes α
deriving DecidableEq, Repr

/-- Whether an expression result is a recoverable decode error. -/
def RRes.isErrRes {α : Type} : RRes α → Bool
  | .err _ => true
  | _ => false

/-- Modelled from the spec: the legacy-format ceiling (the spec's
LEGACY_CEILING).  New-format values are strictly longer than it, and by
the source layout comment every new-format value has length at least
10, so the ceiling is 9. -/
def MAX_OLD_ENCODED_VALUE_LEN : Nat := 9

/-- Modelled from the spec: the common-handle flag byte of the
unique-common-handle value layout; the source tests write the byte 127
in this position. -/
def INDEX_VALUE_COMMON_HANDLE_FLAG : Nat := 127

/-- Modelled from the spec: the fixed key shape is a 1-byte table
marker, an 8-byte table id, and a 2-byte index separator, 11 bytes in
all. -/
def PREFIX_LEN : Nat := 11

/-- Modelled from the spec: the 8-byte index id that follows the fixed
key shape. -/
def ID_LEN : Nat := 8

/-- Modelled from the spec: the flag byte directing a big-endian signed
read of an integer datum. -/
def INT_FLAG : Nat := 3

/-- Modelled from the spec: the flag byte directing a big-endian
unsigned read of an integer datum. -/
def UINT_FLAG : Nat := 4

/-- Modelled from the spec: the flag byte of the null datum. -/
def NIL_FLAG : Nat := 0

/-- Modelled from the spec: the flag byte of a float datum. -/
def FLOAT_FLAG : Nat := 5

/-- Modelled from the spec: the raw datum bytes pushed for a null
column value (a lone null flag byte). -/
def DATUM_DATA_NULL : Bytes := [NIL_FLAG]

/-- Big-endian value of a byte string. -/
def beNat (bs : Bytes) : Nat := bs.foldl (fun acc b => acc * 256 + b) 0

/-- Reinterpretation of an unsigned 64-bit value as a signed one
(two's complement), the Rust cast as i64. -/
def toSigned (u : Nat) : Int :=
  if u < 2 ^ 63 then (u : Int) else (u : Int) - 2 ^ 64

/-- Modelled from the spec: the codec crate's read of an 8-byte
big-endian unsigned integer from the front of a byte cursor; fails when
fewer than 8 bytes remain. -/
def read_u64 (bs : Bytes) : Except String Nat :=
  if bs.length < 8 then .error "unexpected eof" else .ok (beNat (bs.take 8))

/-- Modelled from the spec: a big-endian signed 64-bit read, the bytes
taken as a two's-complement value. -/
def read_i64 (bs : Bytes) : Except String Int :=
  (read_u64 bs).map toSigned

/-- Modelled from the spec: the codec crate's read of a 2-byte
big-endian unsigned integer from the front of a byte cursor. -/
def read_u16 (bs : Bytes) : Except String Nat :=
  if bs.length < 2 then .error "unexpected eof" else .ok (beNat (bs.take 2))

/-- Modelled from the spec: the key must match the fixed table/index
shape — the table marker byte, an 8-byte table id, and the index
separator bytes; anything else is rejected before decoding. -/
def check_index_key (key : Bytes) : Bool :=
  decide (PREFIX_LEN ≤ key.length) &&
    (key[0]? == some 0x74) && (key[9]? == some 0x5f) &&
    (key[10]? == some 0x69)

/-- Modelled from the spec: the byte count of the payload that follows
a datum's flag byte, for the flags exercised by this development (nil,
int, uint, float); any other flag is conservatively a decode error. -/
def datumPayloadLen (flag : Nat) : Option Nat :=
  if flag = NIL_FLAG then some 0
  else if flag = INT_FLAG then some 8
  else if flag = UINT_FLAG then some 8
  else if flag = FLOAT_FLAG then some 8
  else none

/-- Modelled from the spec: sequential raw-datum extraction strips one
flag-directed encoded datum (flag byte included) from the front of a
byte cursor, returning the datum and the remainder; an empty cursor, an
unknown flag, or a truncated payload yields a decode error. -/
def split_datum (buf : Bytes) : Except String (Bytes × Bytes) :=
  match buf with
  | [] => .error "hit EOF, can not split datum"
  | flag :: _ =>
    match datumPayloadLen flag with
    | none => .error "unsupported datum flag"
    | some n =>
      if buf.length < n + 1 then .error "truncated datum"
      else .ok (buf.take (n + 1), buf.drop (n + 1))

/-- Modelled from the spec: skip past the leading n datums of a byte
cursor; fails when the cursor is exhausted before n datums were
stripped. -/
def skip_n (buf : Bytes) : Nat → Except String Bytes
  | 0 => .ok buf
  | n + 1 =>
    match split_datum buf with
    | .error m => .error m
    | .ok (_, rest) => skip_n rest n

/-- A per-column container of the batch: raw (one opaque byte span per
row, decode deferred) or decoded (a typed Int vector, used only for the
eagerly-materialized integer handle). -/
inductive LazyBatchColumn where
  | raw : List Bytes → LazyBatchColumn
  | decodedInt : List (Option Int) → LazyBatchColumn
deriving DecidableEq, Repr

/-- Append a raw byte span to a raw container; on a decoded container
the Rust accessor mut_raw aborts (modelled as none). -/
def LazyBatchColumn.pushRaw : LazyBatchColumn → Bytes → Option LazyBatchColumn
  | .raw rows, bs => some (.raw (rows ++ [bs]))
  | .decodedInt _, _ => none

/-- Append a decoded integer to a decoded container; on a raw container
the Rust accessor mut_decoded aborts (modelled as none). -/
def LazyBatchColumn.pushInt : LazyBatchColumn → Option Int → Option LazyBatchColumn
  | .decodedInt rows, v => some (.decodedInt (rows ++ [v]))
  | .raw _, _ => none

/-- Number of rows currently held by a container. -/
def LazyBatchColumn.rowCount : LazyBatchColumn → Nat
  | .raw rows => rows.length
  | .decodedInt rows => rows.length

/-- Modelled from the spec: the row-format decoder's answer for one
column id — the column is present (with the v1 datum bytes the lookup
yields after conversion), present but null, absent, or the per-column
conversion fails. -/
inductive RowLookup where
  | present : Bytes → RowLookup
  | null : RowLookup
  | absent : RowLookup
  | fail : String → RowLookup
deriving DecidableEq, Repr

/-- Modelled from the spec: the row-format decoder is an external
collaborator; parsing the restore-data bytes either fails with a decode
error or yields a per-column-id answer table. -/
abbrev RowFormatDecoder := Bytes → Except String (List (Int × RowLookup))

/-- Answer of a parsed restore-data row for one column id; ids not in
the table are absent. -/
def oracleLookup (tbl : List (Int × RowLookup)) (id : Int) : RowLookup :=
  match tbl.find? (fun p => p.1 == id) with
  | some p => p.2
  | none => .absent

/-- Sequential raw-datum extraction into consecutive containers, in
schema order: strip one datum from the cursor for each container and
append it as that column's raw contribution.  Containers already
appended to keep their appends when a later column fails, mirroring the
in-place mutation of the Rust code. -/
def extract_columns_from_datum_format :
    Bytes → List LazyBatchColumn → RStatus × Bytes × List LazyBatchColumn
  | datum, [] => (.ok, datum, [])
  | datum, c :: cs =>
    if datum = [] then (.err "column is missing value", datum, c :: cs)
    else
      match split_datum datum with
      | .error m => (.err m, datum, c :: cs)
      | .ok (v, remaining) =>
        match c.pushRaw v with
        | none => (.fatal "mut_raw on a decoded column", datum, c :: cs)
        | some c1 =>
          match extract_columns_from_datum_format remaining cs with
          | (st, rem, cs1) => (st, rem, c1 :: cs1)

/-- Walk the interested column ids, appending each column's row-format
answer to the container with the same index; indexing past the end of
the containers is a fatal abort, an absent column or a failed
conversion is a decode error.  Earlier appends persist on failure. -/
def extract_row_go (tbl : List (Int × RowLookup)) :
    List Int → List LazyBatchColumn → RStatus × List LazyBatchColumn
  | [], cols => (.ok, cols)
  | _ :: _, [] => (.fatal "column index out of range", [])
  | id :: ids, c :: cs =>
    match oracleLookup tbl id with
    | .present bs =>
      match c.pushRaw bs with
      | none => (.fatal "mut_raw on a decoded column", c :: cs)
      | some c1 =>
        match extract_row_go tbl ids cs with
        | (st, cs1) => (st, c1 :: cs1)
    | .null =>
      match c.pushRaw DATUM_DATA_NULL with
      | none => (.fatal "mut_raw on a decoded column", c :: cs)
      | some c1 =>
        match extract_row_go tbl ids cs with
        | (st, cs1) => (st, c1 :: cs1)
    | .absent => (.err "Unexpected missing column", c :: cs)
    | .fail m => (.err m, c :: cs)

/-- Extraction of the interested index columns from restore data via
the row-format decoder: parse the restore bytes, then look up each
interested column id in order, appending to the container with the same
index. -/
def extract_columns_from_row_format (D : RowFormatDecoder) (value : Bytes)
    (colIds : List Int) (cols : List LazyBatchColumn) :
    RStatus × List LazyBatchColumn :=
  match D value with
  | .error m => (.err m, cols)
  | .ok tbl => extract_row_go tbl colIds cols

/-- The strategy to decode handles, resolved once at construction. -/
inductive DecodeHandleStrategy where
  | NoDecode : DecodeHandleStrategy
  | DecodeIntHandle : DecodeHandleStrategy
  | DecodeCommonHandle : DecodeHandleStrategy
deriving DecidableEq, Repr

/-- A column descriptor of the pushed-down schema: the column id and
the pk-handle flag. -/
structure ColumnInfo where
  column_id : Int
  pk_handle : Bool
deriving DecidableEq, Repr

/-- The executor state fixed at construction: the schema width, the ids
of the interested columns excluding the handle columns, and the handle
decode strategy. -/
structure IndexScanExecutorImpl where
  schemaLen : Nat
  columns_id_without_handle : List Int
  decode_handle_strategy : DecodeHandleStrategy
deriving DecidableEq, Repr

/-- Tail of the constructor once the strategy and the handle-column
count are fixed: reject a handle-column count larger than the schema,
otherwise split off the trailing handle columns and keep the ids of the
rest. -/
def newWith (columns_info : List ColumnInfo) (strategy : DecodeHandleStrategy)
    (handle_column_cnt : Nat) : Except String IndexScanExecutorImpl :=
  if handle_column_cnt > columns_info.length then
    .error "The number of handle columns exceeds the length of columns_info"
  else
    .ok { schemaLen := columns_info.length
          columns_id_without_handle :=
            (columns_info.take (columns_info.length - handle_column_cnt)).map
              ColumnInfo.column_id
          decode_handle_strategy := strategy }

/-- Constructor of the executor facade: the pk-handle flag of the last
descriptor declares an integer handle, a positive common-handle column
count declares a common handle; declaring both is a construction error,
and the derived handle-column count may not exceed the schema width. -/
def BatchIndexScanExecutor.new (columns_info : List ColumnInfo)
    (primary_column_ids_len : Nat) : Except String IndexScanExecutorImpl :=
  let is_int_handle := (columns_info.getLast?.map ColumnInfo.pk_handle).getD false
  let is_common_handle := decide (0 < primary_column_ids_len)
  match is_int_handle, is_common_handle with
  | false, false => newWith columns_info .NoDecode 0
  | false, true => newWith columns_info .DecodeCommonHandle primary_column_ids_len
  | true, false => newWith columns_info .DecodeIntHandle 1
  | true, true => .error "Both int handle and common handle are push downed"

/-- Constructs the empty per-column containers for one batch: one raw
container per interested column, then — by strategy — nothing further,
one decoded Int container for the integer handle, or raw containers for
the remaining (common-handle) schema columns. -/
def build_column_vec (impl : IndexScanExecutorImpl) (_scan_rows : Nat) :
    List LazyBatchColumn :=
  let base :=
    List.replicate impl.columns_id_without_handle.length (LazyBatchColumn.raw [])
  match impl.decode_handle_strategy with
  | .NoDecode => base
  | .DecodeIntHandle => base ++ [LazyBatchColumn.decodedInt []]
  | .DecodeCommonHandle =>
    base ++
      List.replicate (impl.schemaLen - impl.columns_id_without_handle.length)
        (LazyBatchColumn.raw [])

/-- Decode the handle stored in a value: read an 8-byte big-endian
unsigned integer from the front of the byte cursor and reinterpret it
as signed. -/
def decode_handle_from_value (value : Bytes) : RRes Int :=
  match read_u64 value with
  | .error _ => .err "Failed to decode handle in value as i64"
  | .ok x => .ok (toSigned x)

/-- Decode the handle stored in a key suffix, directed by its leading
flag byte: the signed flag takes a big-endian signed read, the unsigned
flag a big-endian unsigned read reinterpreted as signed, any other flag
is a decode error.  Reading the flag byte of an empty suffix is a fatal
abort (the Rust index key[0] is out of bounds). -/
def decode_handle_from_key (key : Bytes) : RRes Int :=
  match key with
  | [] => .fatal "index out of range: key[0] on an empty slice"
  | flag :: val =>
    if flag = INT_FLAG then
      match read_i64 val with
      | .error _ => .err "Failed to decode handle in key as i64"
      | .ok v => .ok v
    else if flag = UINT_FLAG then
      match read_u64 val with
      | .error _ => .err "Failed to decode handle in key as u64"
      | .ok x => .ok (toSigned x)
    else .err "Unexpected handle flag"

/-- Append a decoded integer handle to the container at index k;
indexing past the end or appending to a raw container is a fatal
abort. -/
def pushIntAt (cols : List LazyBatchColumn) (k : Nat) (h : Int) :
    RStatus × List LazyBatchColumn :=
  match cols[k]? with
  | none => (.fatal "column index out of range", cols)
  | some c =>
    match c.pushInt (some h) with
    | none => (.fatal "mut_decoded on a raw column", cols)
    | some c1 => (.ok, cols.set k c1)

/-- Process an old-collation pair: extract all interested index columns
from the key payload by sequential datum extraction, then by strategy —
nothing further; the integer handle from the value (payload exhausted,
the unique case) or from the remaining key bytes (non-unique); or the
remaining key bytes as raw common-handle datums. -/
def process_old_collation_kv (impl : IndexScanExecutorImpl)
    (key_payload value : Bytes) (cols : List LazyBatchColumn) :
    RStatus × List LazyBatchColumn :=
  let k := impl.columns_id_without_handle.length
  if k ≤ cols.length then
    match extract_columns_from_datum_format key_payload (cols.take k) with
    | (st, rem, pre1) =>
      let cols1 := pre1 ++ cols.drop k
      match st with
      | .ok =>
        match impl.decode_handle_strategy with
        | .NoDecode => (.ok, cols1)
        | .DecodeIntHandle =>
          if rem = [] then
            match decode_handle_from_value value with
            | .ok h => pushIntAt cols1 k h
            | .err m => (.err m, cols1)
            | .fatal m => (.fatal m, cols1)
          else
            match decode_handle_from_key rem with
            | .ok h => pushIntAt cols1 k h
            | .err m => (.err m, cols1)
            | .fatal m => (.fatal m, cols1)
        | .DecodeCommonHandle =>
          if k ≤ cols1.length then
            match extract_columns_from_datum_format rem (cols1.drop k) with
            | (st2, _, suf1) => (st2, cols1.take k ++ suf1)
          else (.fatal "slice index out of range", cols1)
      | _ => (st, cols1)
  else (.fatal "slice index out of range", cols)

/-- Process a new-collation pair without a common-handle flag: the
first value byte is the tail length, which may not exceed the value
length; the restore data between the first byte and the tail feeds the
row-format extraction of the index columns; then by strategy the
integer handle comes from the key (tail below 8, after skipping the
index datums) or from the front of the tail (tail at least 8), or the
common-handle columns come from the key remainder.  When the tail
length equals the value length the Rust slice of the restore region
has its end index 0 below its start index 1 and aborts. -/
def process_new_collation_kv (D : RowFormatDecoder)
    (impl : IndexScanExecutorImpl) (key_payload value : Bytes)
    (cols : List LazyBatchColumn) : RStatus × List LazyBatchColumn :=
  match value[0]? with
  | none => (.fatal "index out of range: value[0] on an empty slice", cols)
  | some tail_len =>
    if tail_len > value.length then (.err "tail_len is corrupted", cols)
    else if tail_len = value.length then
      (.fatal "slice index starts at 1 but ends at 0", cols)
    else
      let restore_values := (value.drop 1).take (value.length - tail_len - 1)
      match extract_columns_from_row_format D restore_values
          impl.columns_id_without_handle cols with
      | (st, cols1) =>
        match st with
        | .ok =>
          let k := impl.columns_id_without_handle.length
          match impl.decode_handle_strategy with
          | .NoDecode => (.ok, cols1)
          | .DecodeIntHandle =>
            if tail_len < 8 then
              match skip_n key_payload k with
              | .error m => (.err m, cols1)
              | .ok rest =>
                match decode_handle_from_key rest with
                | .ok h => pushIntAt cols1 k h
                | .err m => (.err m, cols1)
                | .fatal m => (.fatal m, cols1)
            else
              match decode_handle_from_value
                  (value.drop (value.length - tail_len)) with
              | .ok h => pushIntAt cols1 k h
              | .err m => (.err m, cols1)
              | .fatal m => (.fatal m, cols1)
          | .DecodeCommonHandle =>
            match skip_n key_payload k with
            | .error m => (.err m, cols1)
            | .ok rest =>
              if k ≤ cols1.length then
                match extract_columns_from_datum_format rest (cols1.drop k) with
                | (st2, _, suf1) => (st2, cols1.take k ++ suf1)
              else (.fatal "slice index out of range", cols1)
        | _ => (st, cols1)

/-- Process a unique-common-handle pair: a 2-byte big-endian handle
length at offset 2 places the handle bytes in the region from offset 4
to 4 plus that length, which may not exceed the value length; bytes
after the handle region are restore data for the index columns, and
with none the index columns come from the key payload; the handle
columns always come from the handle region by sequential datum
extraction. -/
def process_unique_common_handle_kv (D : RowFormatDecoder)
    (impl : IndexScanExecutorImpl) (key_payload value : Bytes)
    (cols : List LazyBatchColumn) : RStatus × List LazyBatchColumn :=
  match read_u16 (value.drop 2) with
  | .error _ => (.err "Fail to read common handle length from value", cols)
  | .ok handle_len =>
    let handle_end_offset := 4 + handle_len
    if handle_end_offset > value.length then
      (.err "handle_len is corrupted", cols)
    else
      let k := impl.columns_id_without_handle.length
      match
        (if handle_end_offset < value.length then
          extract_columns_from_row_format D (value.drop handle_end_offset)
            impl.columns_id_without_handle cols
        else if k ≤ cols.length then
          match extract_columns_from_datum_format key_payload (cols.take k) with
          | (st, _, pre1) => (st, pre1 ++ cols.drop k)
        else (.fatal "slice index out of range", cols)) with
      | (st1, cols1) =>
        match st1 with
        | .ok =>
          if k ≤ cols1.length then
            let common_handle :=
              (value.drop 4).take (handle_end_offset - 4)
            match extract_columns_from_datum_format common_handle
                (cols1.drop k) with
            | (st2, _, suf1) => (st2, cols1.take k ++ suf1)
          else (.fatal "slice index out of range", cols1)
        | _ => (st1, cols1)

/-- Process one key/value pair: validate the key shape and strip the
fixed table/index id bytes (a key passing the shape check but shorter
than the stripped length makes the Rust range slice abort), then
classify the value — longer than the legacy ceiling with the
common-handle flag pattern goes to the unique-common-handle path (a
decode error unless the strategy is DecodeCommonHandle), longer without
the pattern goes to the new-collation path, anything else goes to the
old-collation path. -/
def process_kv_pair (D : RowFormatDecoder) (impl : IndexScanExecutorImpl)
    (key value : Bytes) (cols : List LazyBatchColumn) :
    RStatus × List LazyBatchColumn :=
  if check_index_key key then
    if key.length < PREFIX_LEN + ID_LEN then
      (.fatal "slice range start index out of range", cols)
    else
      let key_payload := key.drop (PREFIX_LEN + ID_LEN)
      if value.length > MAX_OLD_ENCODED_VALUE_LEN then
        match value[0]?, value[1]? with
        | some b0, some b1 =>
          if b0 ≤ 1 ∧ b1 = INDEX_VALUE_COMMON_HANDLE_FLAG then
            if impl.decode_handle_strategy ≠ .DecodeCommonHandle then
              (.err "Expect to decode index values with common handles in DecodeCommonHandle mode", cols)
            else process_unique_common_handle_kv D impl key_payload value cols
          else process_new_collation_kv D impl key_payload value cols
        | _, _ => (.fatal "unreachable: new-format value shorter than 2", cols)
      else process_old_collation_kv impl key_payload value cols
  else (.err "invalid index key", cols)

/-- A well-formed 19-byte index key with no datum payload: the table
marker, an all-zero table id, the index separator, and an all-zero
index id. -/
def exKey : Bytes :=
  0x74 :: (List.replicate 8 0 ++ (0x5f :: 0x69 :: List.replicate 8 0))

/-- A row-format decoder whose parse always succeeds with an empty
column table (every id looks up as absent). -/
def exDecoder : RowFormatDecoder := fun _ => .ok []

/-- Appending a raw span succeeds exactly on a raw container, which
grows by that one span. -/
theorem pushRaw_some {c c1 : LazyBatchColumn} {bs : Bytes}
    (h : c.pushRaw bs = some c1) :
    ∃ rows, c = .raw rows ∧ c1 = .raw (rows ++ [bs]) := by
  cases c with
  | raw rows =>
    simp only [LazyBatchColumn.pushRaw, Option.some.injEq] at h
    exact ⟨rows, rfl, h.symm⟩
  | decodedInt rows => simp [LazyBatchColumn.pushRaw] at h

/-- Appending a decoded integer succeeds exactly on a decoded
container, which grows by that one value. -/
theorem pushInt_some {c c1 : LazyBatchColumn} {v : Option Int}
    (h : c.pushInt v = some c1) :
    ∃ rows, c = .decodedInt rows ∧ c1 = .decodedInt (rows ++ [v]) := by
  cases c with
  | raw rows => simp [LazyBatchColumn.pushInt] at h
  | decodedInt rows =>
    simp only [LazyBatchColumn.pushInt, Option.some.injEq] at h
    exact ⟨rows, rfl, h.symm⟩

/-- Sequential datum extraction preserves the number of containers. -/
theorem edf_length (datum : Bytes) (cs : List LazyBatchColumn) :
    (extract_columns_from_datum_format datum cs).2.2.length = cs.length := by
  induction cs generalizing datum with
  | nil => simp [extract_columns_from_datum_format]
  | cons c cs ih =>
    simp only [extract_columns_from_datum_format]
    split
    · rfl
    · rcases hs : split_datum datum with m | ⟨v, remaining⟩
      · simp [hs]
      · simp only [hs]
        rcases hp : c.pushRaw v with _ | c1
        · simp [hp]
        · simp only [hp]
          rcases he : extract_columns_from_datum_format remaining cs with ⟨st, rem, cs1⟩
          have hl := ih remaining
          rw [he] at hl
          simp [he, hl]

/-- Row-format extraction preserves the number of containers. -/
theorem erg_length (tbl : List (Int × RowLookup)) (ids : List Int)
    (cs : List LazyBatchColumn) :
    (extract_row_go tbl ids cs).2.length = cs.length := by
  induction ids generalizing cs with
  | nil => simp [extract_row_go]
  | cons id ids ih =>
    cases cs with
    | nil => simp [extract_row_go]
    | cons c cs =>
      simp only [extract_row_go]
      rcases hl : oracleLookup tbl id with bs | _ | _ | m
      · simp only [hl]
        rcases hp : c.pushRaw bs with _ | c1
        · simp [hp]
        · simp only [hp]
          simp [ih cs]
      · simp only [hl]
        rcases hp : c.pushRaw DATUM_DATA_NULL with _ | c1
        · simp [hp]
        · simp only [hp]
          simp [ih cs]
      · simp [hl]
      · simp [hl]

/-- Dropping fewer elements than the length keeps the last element. -/
theorem getLast?_drop_of_lt {α : Type} (l : List α) (k : Nat)
    (h : k < l.length) : (l.drop k).getLast? = l.getLast? := by
  conv_rhs => rw [← List.take_append_drop k l]
  rw [List.getLast?_append_of_ne_nil]
  intro hnil
  rw [List.drop_eq_nil_iff] at hnil
  omega

/-- Sequential datum extraction that does not finish leaves the last
container of its segment unchanged. -/
theorem edf_last (datum : Bytes) (cs : List LazyBatchColumn)
    (h : (extract_columns_from_datum_format datum cs).1 ≠ .ok) :
    (extract_columns_from_datum_format datum cs).2.2.getLast? = cs.getLast? := by
  induction cs generalizing datum with
  | nil => simp [extract_columns_from_datum_format] at h
  | cons c cs ih =>
    cases datum with
    | nil => simp [extract_columns_from_datum_format]
    | cons b bs =>
      rcases hs : split_datum (b :: bs) with m | ⟨v, remaining⟩
      · simp [extract_columns_from_datum_format, hs]
      · rcases hp : c.pushRaw v with _ | c1
        · simp [extract_columns_from_datum_format, hs, hp]
        · rcases he : extract_columns_from_datum_format remaining cs with ⟨st, rem, cs1⟩
          simp only [extract_columns_from_datum_format, hs, hp, he,
            List.cons_ne_nil, if_false] at h ⊢
          cases cs with
          | nil =>
            rw [extract_columns_from_datum_format] at he
            cases he
            exact absurd rfl h
          | cons c2 cs2 =>
            have hlen := edf_length remaining (c2 :: cs2)
            rw [he] at hlen
            cases cs1 with
            | nil => simp at hlen
            | cons d ds =>
              have hih := ih remaining (by rw [he]; exact h)
              rw [he] at hih
              simpa using hih

/-- Row-format extraction that stops with a decode error leaves the
last container of its segment unchanged. -/
theorem erg_last (tbl : List (Int × RowLookup)) (ids : List Int)
    (cs : List LazyBatchColumn)
    (h : (extract_row_go tbl ids cs).1.isDecodeErr = true) :
    (extract_row_go tbl ids cs).2.getLast? = cs.getLast? := by
  induction ids generalizing cs with
  | nil => simp [extract_row_go, RStatus.isDecodeErr] at h
  | cons id ids ih =>
    cases cs with
    | nil => simp [extract_row_go, RStatus.isDecodeErr] at h
    | cons c cs =>
      rcases hl : oracleLookup tbl id with bs | _ | _ | m
      · rcases hp : c.pushRaw bs with _ | c1
        · simp [extract_row_go, hl, hp, RStatus.isDecodeErr] at h
        · rcases he : extract_row_go tbl ids cs with ⟨st, cs1⟩
          simp only [extract_row_go, hl, hp, he] at h ⊢
          cases cs with
          | nil =>
            cases ids with
            | nil =>
              rw [extract_row_go] at he
              cases he
              simp [RStatus.isDecodeErr] at h
            | cons id2 ids2 =>
              rw [extract_row_go] at he
              cases he
              simp [RStatus.isDecodeErr] at h
          | cons c2 cs2 =>
            have hlen := erg_length tbl ids (c2 :: cs2)
            rw [he] at hlen
            cases cs1 with
            | nil => simp at hlen
            | cons d ds =>
              rw [List.getLast?_cons_cons, List.getLast?_cons_cons]
              have hih := ih (c2 :: cs2) (by rw [he]; exact h)
              rw [he] at hih
              exact hih
      · rcases hp : c.pushRaw DATUM_DATA_NULL with _ | c1
        · simp [extract_row_go, hl, hp, RStatus.isDecodeErr] at h
        · rcases he : extract_row_go tbl ids cs with ⟨st, cs1⟩
          simp only [extract_row_go, hl, hp, he] at h ⊢
          cases cs with
          | nil =>
            cases ids with
            | nil =>
              rw [extract_row_go] at he
              cases he
              simp [RStatus.isDecodeErr] at h
            | cons id2 ids2 =>
              rw [extract_row_go] at he
              cases he
              simp [RStatus.isDecodeErr] at h
          | cons c2 cs2 =>
            have hlen := erg_length tbl ids (c2 :: cs2)
            rw [he] at hlen
            cases cs1 with
            | nil => simp at hlen
            | cons d ds =>
              rw [List.getLast?_cons_cons, List.getLast?_cons_cons]
              have hih := ih (c2 :: cs2) (by rw [he]; exact h)
              rw [he] at hih
              exact hih
      · simp [extract_row_go, hl]
      · simp [extract_row_go, hl]

/-- Row-format extraction only touches the containers of the
interested columns: the containers past them are unchanged, whatever
the status. -/
theorem erg_drop (tbl : List (Int × RowLookup)) (ids : List Int)
    (cs : List LazyBatchColumn) :
    (extract_row_go tbl ids cs).2.drop ids.length = cs.drop ids.length := by
  induction ids generalizing cs with
  | nil => simp [extract_row_go]
  | cons id ids ih =>
    cases cs with
    | nil => simp [extract_row_go]
    | cons c cs =>
      simp only [extract_row_go]
      rcases hl : oracleLookup tbl id with bs | _ | _ | m
      · simp only [hl]
        rcases hp : c.pushRaw bs with _ | c1
        · simp [hp]
        · simp only [hp]
          simp [ih cs]
      · simp only [hl]
        rcases hp : c.pushRaw DATUM_DATA_NULL with _ | c1
        · simp [hp]
        · simp only [hp]
          simp [ih cs]
      · simp [hl]
      · simp [hl]

/-- Positions at or past an agreed-upon drop point have equal
entries. -/
theorem getElem?_of_drop_eq {α : Type} (l l' : List α) (n : Nat)
    (h : l.drop n = l'.drop n) : ∀ m, n ≤ m → l[m]? = l'[m]? := by
  intro m hm
  have h1 := List.getElem?_drop l n (m - n)
  have h2 := List.getElem?_drop l' n (m - n)
  rw [h, h2] at h1
  have hmn : n + (m - n) = m := by omega
  rw [hmn] at h1
  exact h1.symm

/-- Successful sequential datum extraction appends exactly one raw span
to every container of its segment. -/
theorem edf_ok (datum : Bytes) (cs : List LazyBatchColumn) (rem : Bytes)
    (cs' : List LazyBatchColumn)
    (h : extract_columns_from_datum_format datum cs = (.ok, rem, cs')) :
    ∀ i, i < cs.length → ∃ rows bs, cs[i]? = some (.raw rows) ∧
      cs'[i]? = some (.raw (rows ++ [bs])) := by
  induction cs generalizing datum rem cs' with
  | nil => intro i hi; simp at hi
  | cons c cs ih =>
    cases datum with
    | nil => simp [extract_columns_from_datum_format] at h
    | cons b bs0 =>
      rcases hs : split_datum (b :: bs0) with m | ⟨v, remaining⟩
      · simp [extract_columns_from_datum_format, hs] at h
      · rcases hp : c.pushRaw v with _ | c1
        · simp [extract_columns_from_datum_format, hs, hp] at h
        · rcases he : extract_columns_from_datum_format remaining cs with ⟨st, rem0, cs1⟩
          simp only [extract_columns_from_datum_format, hs, hp, he,
            List.cons_ne_nil, if_false, Prod.mk.injEq] at h
          obtain ⟨hst, hrem, hcs⟩ := h
          subst hst
          subst hrem
          subst hcs
          intro i hi
          cases i with
          | zero =>
            obtain ⟨rows, hc, hc1⟩ := pushRaw_some hp
            exact ⟨rows, v, by simp [hc], by simp [hc1]⟩
          | succ j =>
            have hj : j < cs.length := by simpa using hi
            obtain ⟨rows, bs1, h1, h2⟩ := ih remaining rem0 cs1 he j hj
            exact ⟨rows, bs1, by simpa using h1, by simpa using h2⟩

/-- Successful row-format extraction appends exactly one raw span to
the container of each interested column. -/
theorem erg_ok (tbl : List (Int × RowLookup)) (ids : List Int)
    (cs cs' : List LazyBatchColumn)
    (h : extract_row_go tbl ids cs = (.ok, cs')) :
    ∀ i, i < ids.length → ∃ rows bs, cs[i]? = some (.raw rows) ∧
      cs'[i]? = some (.raw (rows ++ [bs])) := by
  induction ids generalizing cs cs' with
  | nil => intro i hi; simp at hi
  | cons id ids ih =>
    cases cs with
    | nil => simp [extract_row_go] at h
    | cons c cs =>
      rcases hl : oracleLookup tbl id with bs | _ | _ | m
      · rcases hp : c.pushRaw bs with _ | c1
        · simp [extract_row_go, hl, hp] at h
        · rcases he : extract_row_go tbl ids cs with ⟨st, cs1⟩
          simp only [extract_row_go, hl, hp, he, Prod.mk.injEq] at h
          obtain ⟨hst, hcs⟩ := h
          subst hst
          subst hcs
          intro i hi
          cases i with
          | zero =>
            obtain ⟨rows, hc, hc1⟩ := pushRaw_some hp
            exact ⟨rows, bs, by simp [hc], by simp [hc1]⟩
          | succ j =>
            have hj : j < ids.length := by simpa using hi
            obtain ⟨rows, bs1, h1, h2⟩ := ih cs cs1 he j hj
            exact ⟨rows, bs1, by simpa using h1, by simpa using h2⟩
      · rcases hp : c.pushRaw DATUM_DATA_NULL with _ | c1
        · simp [extract_row_go, hl, hp] at h
        · rcases he : extract_row_go tbl ids cs with ⟨st, cs1⟩
          simp only [extract_row_go, hl, hp, he, Prod.mk.injEq] at h
          obtain ⟨hst, hcs⟩ := h
          subst hst
          subst hcs
          intro i hi
          cases i with
          | zero =>
            obtain ⟨rows, hc, hc1⟩ := pushRaw_some hp
            exact ⟨rows, DATUM_DATA_NULL, by simp [hc], by simp [hc1]⟩
          | succ j =>
            have hj : j < ids.length := by simpa using hi
            obtain ⟨rows, bs1, h1, h2⟩ := ih cs cs1 he j hj
            exact ⟨rows, bs1, by simpa using h1, by simpa using h2⟩
      · simp [extract_row_go, hl] at h
      · simp [extract_row_go, hl] at h

/-- Appending the handle preserves the number of containers. -/
theorem pushIntAt_length (cols : List LazyBatchColumn) (k : Nat) (h : Int) :
    (pushIntAt cols k h).2.length = cols.length := by
  unfold pushIntAt
  rcases hc : cols[k]? with _ | c
  · simp [hc]
  · simp only [hc]
    rcases hp : c.pushInt (some h) with _ | c1 <;> simp [hp]

/-- Appending the handle never yields a recoverable decode error. -/
theorem pushIntAt_not_err (cols : List LazyBatchColumn) (k : Nat) (h : Int) :
    (pushIntAt cols k h).1.isDecodeErr = false := by
  unfold pushIntAt
  rcases hc : cols[k]? with _ | c
  · simp [hc, RStatus.isDecodeErr]
  · simp only [hc]
    rcases hp : c.pushInt (some h) with _ | c1 <;> simp [hp, RStatus.isDecodeErr]

/-- A successful handle append updates exactly the container at the
handle index, which was a decoded container and grows by the handle. -/
theorem pushIntAt_ok (cols : List LazyBatchColumn) (k : Nat) (h : Int)
    (cols' : List LazyBatchColumn)
    (hres : pushIntAt cols k h = (.ok, cols')) :
    ∃ old, cols[k]? = some (.decodedInt old) ∧
      cols' = cols.set k (.decodedInt (old ++ [some h])) := by
  unfold pushIntAt at hres
  rcases hc : cols[k]? with _ | c
  · simp [hc] at hres
  · rcases hp : c.pushInt (some h) with _ | c1
    · simp [hc, hp] at hres
    · simp only [hc, hp, Prod.mk.injEq, true_and] at hres
      obtain ⟨rows, hcd, hc1⟩ := pushInt_some hp
      subst hcd
      subst hc1
      exact ⟨rows, rfl, hres.symm⟩

/-- Row-format extraction via the decoder preserves the number of
containers. -/
theorem ecrf_length (D : RowFormatDecoder) (value : Bytes) (colIds : List Int)
    (cols : List LazyBatchColumn) :
    (extract_columns_from_row_format D value colIds cols).2.length = cols.length := by
  unfold extract_columns_from_row_format
  rcases hD : D value with m | tbl
  · simp
  · simp [erg_length]

/-- Row-format extraction via the decoder leaves the containers past
the interested columns unchanged, whatever the status. -/
theorem ecrf_drop (D : RowFormatDecoder) (value : Bytes) (colIds : List Int)
    (cols : List LazyBatchColumn) :
    (extract_columns_from_row_format D value colIds cols).2.drop colIds.length =
      cols.drop colIds.length := by
  unfold extract_columns_from_row_format
  rcases hD : D value with m | tbl
  · simp
  · simp [erg_drop]

/-- Row-format extraction via the decoder that stops with a decode
error leaves the last container unchanged. -/
theorem ecrf_last (D : RowFormatDecoder) (value : Bytes) (colIds : List Int)
    (cols : List LazyBatchColumn)
    (h : (extract_columns_from_row_format D value colIds cols).1.isDecodeErr = true) :
    (extract_columns_from_row_format D value colIds cols).2.getLast? =
      cols.getLast? := by
  unfold extract_columns_from_row_format at h ⊢
  rcases hD : D value with m | tbl
  · rfl
  · rw [hD] at h
    exact erg_last tbl colIds cols h

/-- A successful row-format extraction decomposes into a successful
parse and a successful walk of the interested columns. -/
theorem ecrf_ok (D : RowFormatDecoder) (value : Bytes) (colIds : List Int)
    (cols cols' : List LazyBatchColumn)
    (h : extract_columns_from_row_format D value colIds cols = (.ok, cols')) :
    ∃ tbl, D value = .ok tbl ∧ extract_row_go tbl colIds cols = (.ok, cols') := by
  unfold extract_columns_from_row_format at h
  rcases hD : D value with m | tbl
  · simp [hD] at h
  · rw [hD] at h
    exact ⟨tbl, rfl, h⟩

/-- A long value without the common-handle flag pattern is processed
by the new-collation path. -/
theorem process_kv_pair_new_dispatch (D : RowFormatDecoder)
    (impl : IndexScanExecutorImpl) (key value : Bytes) (b0 b1 : Nat)
    (cols : List LazyBatchColumn)
    (hkey : check_index_key key = true)
    (hklen : PREFIX_LEN + ID_LEN ≤ key.length)
    (hlen : MAX_OLD_ENCODED_VALUE_LEN < value.length)
    (hv0 : value[0]? = some b0) (hv1 : value[1]? = some b1)
    (hpat : ¬(b0 ≤ 1 ∧ b1 = INDEX_VALUE_COMMON_HANDLE_FLAG)) :
    process_kv_pair D impl key value cols =
      process_new_collation_kv D impl (key.drop (PREFIX_LEN + ID_LEN))
        value cols := by
  simp [process_kv_pair, hkey, hpat, hlen, hv0, hv1, Nat.not_lt.mpr hklen]

/-- A short value is processed by the old-collation path. -/
theorem process_kv_pair_old_dispatch (D : RowFormatDecoder)
    (impl : IndexScanExecutorImpl) (key value : Bytes)
    (cols : List LazyBatchColumn)
    (hkey : check_index_key key = true)
    (hklen : PREFIX_LEN + ID_LEN ≤ key.length)
    (hlen : value.length ≤ MAX_OLD_ENCODED_VALUE_LEN) :
    process_kv_pair D impl key value cols =
      process_old_collation_kv impl (key.drop (PREFIX_LEN + ID_LEN)) value cols := by
  simp [process_kv_pair, hkey, Nat.not_lt.mpr hklen, Nat.not_lt.mpr hlen]

/-- A long value carrying the common-handle flag pattern is processed
by the unique-common-handle path when the strategy decodes common
handles. -/
theorem process_kv_pair_uch_dispatch (D : RowFormatDecoder)
    (impl : IndexScanExecutorImpl) (key value : Bytes) (b0 b1 : Nat)
    (cols : List LazyBatchColumn)
    (hkey : check_index_key key = true)
    (hklen : PREFIX_LEN + ID_LEN ≤ key.length)
    (hlen : MAX_OLD_ENCODED_VALUE_LEN < value.length)
    (hv0 : value[0]? = some b0) (hv1 : value[1]? = some b1)
    (hb0 : b0 ≤ 1) (hb1 : b1 = INDEX_VALUE_COMMON_HANDLE_FLAG)
    (hstrat : impl.decode_handle_strategy = .DecodeCommonHandle) :
    process_kv_pair D impl key value cols =
      process_unique_common_handle_kv D impl (key.drop (PREFIX_LEN + ID_LEN))
        value cols := by
  simp [process_kv_pair, hkey, hlen, hv0, hv1, Nat.not_lt.mpr hklen, hb0, hb1,
    hstrat]

/-- C6: for a value longer than the legacy ceiling whose first byte is
at most 1 and whose second byte is the common-handle flag, a strategy
other than DecodeCommonHandle makes process_kv_pair return a decode
error with no column extracted. -/
theorem c6_common_handle_flag_requires_strategy (D : RowFormatDecoder)
    (impl : IndexScanExecutorImpl) (key value : Bytes) (b0 b1 : Nat)
    (cols : List LazyBatchColumn)
    (hkey : check_index_key key = true)
    (hklen : PREFIX_LEN + ID_LEN ≤ key.length)
    (hlen : MAX_OLD_ENCODED_VALUE_LEN < value.length)
    (hv0 : value[0]? = some b0) (hv1 : value[1]? = some b1)
    (hb0 : b0 ≤ 1) (hb1 : b1 = INDEX_VALUE_COMMON_HANDLE_FLAG)
    (hstrat : impl.decode_handle_strategy ≠ .DecodeCommonHandle) :
    (process_kv_pair D impl key value cols).1.isDecodeErr = true ∧
    (process_kv_pair D impl key value cols).2 = cols := by
  simp [process_kv_pair, hkey, Nat.not_lt.mpr hklen, hlen, hv0, hv1, hb0, hb1,
    hstrat, RStatus.isDecodeErr]

/-- C6 witness: a concrete IntHandle executor rejects a concrete
common-handle-flagged value, leaving the batch untouched. -/
theorem c6_witness :
    (process_kv_pair exDecoder
      { schemaLen := 1, columns_id_without_handle := [],
        decode_handle_strategy := .DecodeIntHandle }
      exKey (0 :: 127 :: List.replicate 8 0)
      [LazyBatchColumn.decodedInt []]).1.isDecodeErr = true ∧
    (process_kv_pair exDecoder
      { schemaLen := 1, columns_id_without_handle := [],
        decode_handle_strategy := .DecodeIntHandle }
      exKey (0 :: 127 :: List.replicate 8 0)
      [LazyBatchColumn.decodedInt []]).2 = [LazyBatchColumn.decodedInt []] :=
  c6_common_handle_flag_requires_strategy exDecoder
    { schemaLen := 1, columns_id_without_handle := [],
      decode_handle_strategy := .DecodeIntHandle }
    exKey (0 :: 127 :: List.replicate 8 0) 0 127 [LazyBatchColumn.decodedInt []]
    (by decide) (by decide) (by decide) (by decide) (by decide) (by decide) rfl
    (by decide)

/-- C7: construction fails whenever the last descriptor flags an
integer handle while common-handle columns are declared, and whenever
the derived handle-column count exceeds the schema width. -/
theorem c7_new_rejects_bad_handle_config (ci : List ColumnInfo) (plen : Nat) :
    (((ci.getLast?.map ColumnInfo.pk_handle).getD false) = true → 0 < plen →
      ∃ m, BatchIndexScanExecutor.new ci plen = .error m) ∧
    (ci.length < plen →
      ∃ m, BatchIndexScanExecutor.new ci plen = .error m) := by
  constructor
  · intro hint hpos
    simp [BatchIndexScanExecutor.new, hint, hpos]
  · intro hlt
    have hpos : 0 < plen := by omega
    cases hb : (ci.getLast?.map ColumnInfo.pk_handle).getD false with
    | true => simp [BatchIndexScanExecutor.new, hb, hpos]
    | false => simp [BatchIndexScanExecutor.new, newWith, hb, hpos, hlt]

/-- C7 witness: one schema declaring both handle kinds and one whose
common-handle count exceeds its single column are both rejected. -/
theorem c7_witness :
    (∃ m, BatchIndexScanExecutor.new [⟨1, true⟩] 2 = .error m) ∧
    (∃ m, BatchIndexScanExecutor.new [⟨1, false⟩] 2 = .error m) :=
  ⟨(c7_new_rejects_bad_handle_config [⟨1, true⟩] 2).1 (by decide) (by decide),
   (c7_new_rejects_bad_handle_config [⟨1, false⟩] 2).2 (by decide)⟩

/-- C10: only the last descriptor's pk-handle flag is consulted; with
it clear and a zero common-handle count the construction succeeds in
NoDecode with every column interested, whatever earlier flags say. -/
theorem c10_only_last_pk_flag_consulted (ci : List ColumnInfo) (c : ColumnInfo)
    (hlast : ci.getLast? = some c) (hpk : c.pk_handle = false) :
    BatchIndexScanExecutor.new ci 0 =
      .ok { schemaLen := ci.length,
            columns_id_without_handle := ci.map ColumnInfo.column_id,
            decode_handle_strategy := .NoDecode } := by
  simp [BatchIndexScanExecutor.new, newWith, hlast, hpk]

/-- C10 witness: a schema whose first descriptor wrongly flags a pk
handle while the last does not still constructs in NoDecode. -/
theorem c10_witness :
    BatchIndexScanExecutor.new [⟨1, true⟩, ⟨2, false⟩] 0 =
      .ok { schemaLen := 2, columns_id_without_handle := [1, 2],
            decode_handle_strategy := .NoDecode } :=
  c10_only_last_pk_flag_consulted [⟨1, true⟩, ⟨2, false⟩] ⟨2, false⟩ rfl rfl

/-- C9: at a well-formed 19-byte key and a 10-byte new-collation value
whose first byte (the tail length) equals the value length, processing
aborts like the Rust slice of the restore region (start index 1 past
end index 0) instead of returning Ok or a decode error. -/
theorem c9_tail_len_eq_len_aborts :
    (process_kv_pair exDecoder
      { schemaLen := 1, columns_id_without_handle := [],
        decode_handle_strategy := .DecodeIntHandle }
      exKey [10, 2, 0, 0, 0, 0, 0, 0, 0, 0]
      [LazyBatchColumn.decodedInt []]).1 =
      .fatal "slice index starts at 1 but ends at 0" := by decide

/-- C1 counterexample: a new-collation IntHandle value with tail
length 9 — the code decodes handle 0 from the first 8 bytes of the
9-byte tail (value bytes 1 to 8), while the last 8 bytes of the value
read 1 big-endian; the two disagree. -/
theorem c1_counterexample :
    (process_kv_pair exDecoder
      { schemaLen := 1, columns_id_without_handle := [],
        decode_handle_strategy := .DecodeIntHandle }
      exKey [9, 0, 0, 0, 0, 0, 0, 0, 0, 1] [LazyBatchColumn.decodedInt []] =
      (.ok, [LazyBatchColumn.decodedInt [some 0]])) ∧
    toSigned (beNat (([9, 0, 0, 0, 0, 0, 0, 0, 0, 1] : Bytes).drop
      (([9, 0, 0, 0, 0, 0, 0, 0, 0, 1] : Bytes).length - 8))) = 1 ∧
    (0 : Int) ≠ 1 := by decide

/-- C5 counterexample: an old-collation pair whose key payload holds
one datum for two interested columns fails with a decode error, yet the
first container keeps the datum appended before the failure. -/
theorem c5_counterexample :
    ((process_kv_pair exDecoder
      { schemaLen := 2, columns_id_without_handle := [1, 2],
        decode_handle_strategy := .NoDecode }
      (exKey ++ [3, 0, 0, 0, 0, 0, 0, 0, 7]) []
      [LazyBatchColumn.raw [], LazyBatchColumn.raw []]).1.isDecodeErr = true) ∧
    (process_kv_pair exDecoder
      { schemaLen := 2, columns_id_without_handle := [1, 2],
        decode_handle_strategy := .NoDecode }
      (exKey ++ [3, 0, 0, 0, 0, 0, 0, 0, 7]) []
      [LazyBatchColumn.raw [], LazyBatchColumn.raw []]).2 ≠
      [LazyBatchColumn.raw [], LazyBatchColumn.raw []] := by decide

/-- C1 (amended): under IntHandle, for a new-collation value whose
tail length (its first byte) is at least 8, a successful
process_kv_pair appends to the decoded handle column exactly the
big-endian unsigned read of the first 8 bytes of the trailing
tail-length bytes of the value, reinterpreted as signed (the last 8
bytes of the value only when the tail length is exactly 8). -/
theorem c1_int_handle_from_value_tail (D : RowFormatDecoder)
    (impl : IndexScanExecutorImpl) (key value : Bytes) (b0 b1 : Nat)
    (cols cols' : List LazyBatchColumn)
    (hkey : check_index_key key = true)
    (hklen : PREFIX_LEN + ID_LEN ≤ key.length)
    (hlen : MAX_OLD_ENCODED_VALUE_LEN < value.length)
    (hv0 : value[0]? = some b0) (hv1 : value[1]? = some b1)
    (hpat : ¬(b0 ≤ 1 ∧ b1 = INDEX_VALUE_COMMON_HANDLE_FLAG))
    (hstrat : impl.decode_handle_strategy = .DecodeIntHandle)
    (h8 : 8 ≤ b0)
    (hres : process_kv_pair D impl key value cols = (.ok, cols')) :
    ∃ old,
      cols[impl.columns_id_without_handle.length]? = some (.decodedInt old) ∧
      cols'[impl.columns_id_without_handle.length]? =
        some (.decodedInt (old ++
          [some (toSigned (beNat
            ((value.drop (value.length - b0)).take 8)))])) := by
  rw [process_kv_pair_new_dispatch D impl key value b0 b1 cols hkey hklen hlen
    hv0 hv1 hpat] at hres
  by_cases hgt : b0 > value.length
  · simp [process_new_collation_kv, hv0, hgt] at hres
  · by_cases hb0len : b0 = value.length
    · simp [process_new_collation_kv, hv0, hgt, hb0len] at hres
    · rcases hex : extract_columns_from_row_format D
          ((value.drop 1).take (value.length - b0 - 1))
          impl.columns_id_without_handle cols with ⟨st1, cols1⟩
      simp only [process_new_collation_kv, hv0, hgt, hb0len, if_false, hex,
        hstrat] at hres
      cases st1 with
      | err m => simp at hres
      | fatal m => simp at hres
      | ok =>
        rw [if_neg (by omega : ¬ b0 < 8)] at hres
        rcases hdv : decode_handle_from_value
            (value.drop (value.length - b0)) with h | m | m
        · rw [hdv] at hres
          have hlen8 : ¬ (value.drop (value.length - b0)).length < 8 := by
            rw [List.length_drop]
            omega
          simp only [decode_handle_from_value, read_u64, if_neg hlen8,
            RRes.ok.injEq] at hdv
          obtain ⟨old, hold, hset⟩ := pushIntAt_ok cols1
            impl.columns_id_without_handle.length h cols' hres
          have hdropeq := ecrf_drop D
            ((value.drop 1).take (value.length - b0 - 1))
            impl.columns_id_without_handle cols
          rw [hex] at hdropeq
          have hsame := getElem?_of_drop_eq cols1 cols
            impl.columns_id_without_handle.length hdropeq
            impl.columns_id_without_handle.length le_rfl
          have hk : impl.columns_id_without_handle.length < cols1.length := by
            rw [List.getElem?_eq_some] at hold
            exact hold.1
          refine ⟨old, ?_, ?_⟩
          · rw [← hsame]
            exact hold
          · rw [hset, List.getElem?_set_self hk, hdv]
        · rw [hdv] at hres
          simp at hres
        · rw [hdv] at hres
          simp at hres

/-- C1 witness: tail length exactly 8 — the appended handle is the
big-endian signed reinterpretation of the 8 tail bytes. -/
theorem c1_witness :
    ∃ old,
      ([LazyBatchColumn.decodedInt []] :
          List LazyBatchColumn)[([] : List Int).length]? =
        some (.decodedInt old) ∧
      ([LazyBatchColumn.decodedInt [some 5]] :
          List LazyBatchColumn)[([] : List Int).length]? =
        some (.decodedInt (old ++
          [some (toSigned (beNat
            ((([8, 7, 0, 0, 0, 0, 0, 0, 0, 5] : Bytes).drop
              (([8, 7, 0, 0, 0, 0, 0, 0, 0, 5] : Bytes).length - 8)).take 8)))])) :=
  c1_int_handle_from_value_tail exDecoder
    { schemaLen := 1, columns_id_without_handle := [],
      decode_handle_strategy := .DecodeIntHandle }
    exKey [8, 7, 0, 0, 0, 0, 0, 0, 0, 5] 8 7
    [LazyBatchColumn.decodedInt []] [LazyBatchColumn.decodedInt [some 5]]
    (by decide) (by decide) (by decide) (by decide) (by decide) (by decide)
    rfl (by decide) (by decide)

/-- A handle append onto a decoded container at a valid index
succeeds and grows that container by the handle. -/
theorem pushIntAt_of_decoded (cols : List LazyBatchColumn) (k : Nat)
    (old : List (Option Int)) (h : Int)
    (hc : cols[k]? = some (.decodedInt old)) :
    pushIntAt cols k h = (.ok, cols.set k (.decodedInt (old ++ [some h]))) := by
  simp [pushIntAt, hc, LazyBatchColumn.pushInt]

/-- Decoding a handle from a value of at least 8 bytes reads the first
8 bytes big-endian and reinterprets them as signed. -/
theorem decode_handle_from_value_long (value : Bytes) (h8 : 8 ≤ value.length) :
    decode_handle_from_value value = .ok (toSigned (beNat (value.take 8))) := by
  simp [decode_handle_from_value, read_u64, Nat.not_lt.mpr h8]

/-- Decoding a handle from a value shorter than 8 bytes is a decode
error. -/
theorem decode_handle_from_value_short (value : Bytes) (h8 : value.length < 8) :
    decode_handle_from_value value =
      .err "Failed to decode handle in value as i64" := by
  simp [decode_handle_from_value, read_u64, h8]

/-- The signed-flag handle read of at least 8 remaining bytes. -/
theorem decode_handle_from_key_int (r : Bytes) (h8 : 8 ≤ r.length) :
    decode_handle_from_key (INT_FLAG :: r) =
      .ok (toSigned (beNat (r.take 8))) := by
  simp [decode_handle_from_key, read_i64, read_u64, Nat.not_lt.mpr h8,
    Except.map]

/-- The unsigned-flag handle read of at least 8 remaining bytes. -/
theorem decode_handle_from_key_uint (r : Bytes) (h8 : 8 ≤ r.length) :
    decode_handle_from_key (UINT_FLAG :: r) =
      .ok (toSigned (beNat (r.take 8))) := by
  simp [decode_handle_from_key, read_u64, Nat.not_lt.mpr h8, INT_FLAG,
    UINT_FLAG]

/-- A handle flag read with fewer than 8 remaining bytes is a decode
error, for both integer flags. -/
theorem decode_handle_from_key_short (flag : Nat) (r : Bytes)
    (hf : flag = INT_FLAG ∨ flag = UINT_FLAG) (h8 : r.length < 8) :
    (decode_handle_from_key (flag :: r)).isErrRes = true := by
  rcases hf with hf | hf <;>
    simp [decode_handle_from_key, hf, read_i64, read_u64, h8, Except.map,
      RRes.isErrRes, INT_FLAG, UINT_FLAG]

/-- An unrecognized handle flag is a decode error. -/
theorem decode_handle_from_key_bad (flag : Nat) (r : Bytes)
    (h1 : flag ≠ INT_FLAG) (h2 : flag ≠ UINT_FLAG) :
    decode_handle_from_key (flag :: r) = .err "Unexpected handle flag" := by
  simp [decode_handle_from_key, h1, h2]

/-- C3: for a value classified as new-collation without a common
handle, a tail length above the value length is rejected with a decode
error leaving the columns untouched; otherwise the outcome depends on
the row-format decoder only through the restore region
value[1 .. len(value) - tail_len]. -/
theorem c3_new_collation_restore_region (impl : IndexScanExecutorImpl)
    (key value : Bytes) (b0 b1 : Nat) (cols : List LazyBatchColumn)
    (hkey : check_index_key key = true)
    (hklen : PREFIX_LEN + ID_LEN ≤ key.length)
    (hlen : MAX_OLD_ENCODED_VALUE_LEN < value.length)
    (hv0 : value[0]? = some b0) (hv1 : value[1]? = some b1)
    (hpat : ¬(b0 ≤ 1 ∧ b1 = INDEX_VALUE_COMMON_HANDLE_FLAG)) :
    (value.length < b0 →
      ∀ D : RowFormatDecoder,
        (process_kv_pair D impl key value cols).1.isDecodeErr = true ∧
        (process_kv_pair D impl key value cols).2 = cols) ∧
    (b0 ≤ value.length →
      ∀ D1 D2 : RowFormatDecoder,
        D1 ((value.drop 1).take (value.length - b0 - 1)) =
          D2 ((value.drop 1).take (value.length - b0 - 1)) →
        process_kv_pair D1 impl key value cols =
          process_kv_pair D2 impl key value cols) := by
  constructor
  · intro hbig D
    rw [process_kv_pair_new_dispatch D impl key value b0 b1 cols hkey hklen
      hlen hv0 hv1 hpat]
    simp [process_new_collation_kv, hv0, hbig, RStatus.isDecodeErr]
  · intro hle D1 D2 hD
    rw [process_kv_pair_new_dispatch D1 impl key value b0 b1 cols hkey hklen
      hlen hv0 hv1 hpat,
      process_kv_pair_new_dispatch D2 impl key value b0 b1 cols hkey hklen
      hlen hv0 hv1 hpat]
    by_cases heq : b0 = value.length
    · simp [process_new_collation_kv, hv0, Nat.not_lt.mpr hle, heq]
    · simp only [process_new_collation_kv, hv0, if_neg (Nat.not_lt.mpr hle),
        if_neg heq, extract_columns_from_row_format]
      rw [hD]

/-- C3 witness: two decoders agreeing on the concrete restore region
produce identical outcomes on a concrete new-collation pair. -/
theorem c3_witness :
    process_kv_pair exDecoder
      { schemaLen := 1, columns_id_without_handle := [],
        decode_handle_strategy := .DecodeIntHandle }
      exKey [0, 5, 0, 0, 0, 0, 0, 0, 0, 0] [LazyBatchColumn.decodedInt []] =
    process_kv_pair
      (fun bs => if bs = ([5, 0, 0, 0, 0, 0, 0, 0, 0] : Bytes)
        then Except.ok [] else Except.error "other")
      { schemaLen := 1, columns_id_without_handle := [],
        decode_handle_strategy := .DecodeIntHandle }
      exKey [0, 5, 0, 0, 0, 0, 0, 0, 0, 0] [LazyBatchColumn.decodedInt []] :=
  (c3_new_collation_restore_region
    { schemaLen := 1, columns_id_without_handle := [],
      decode_handle_strategy := .DecodeIntHandle }
    exKey [0, 5, 0, 0, 0, 0, 0, 0, 0, 0] 0 5 [LazyBatchColumn.decodedInt []]
    (by decide) (by decide) (by decide) (by decide) (by decide)
    (by decide)).2 (by decide) exDecoder
    (fun bs => if bs = ([5, 0, 0, 0, 0, 0, 0, 0, 0] : Bytes)
      then Except.ok [] else Except.error "other")
    (by simp [exDecoder])

/-- C2: old-collation IntHandle decode — after the index columns are
extracted from the key payload, an exhausted remainder takes the handle
from the first 8 bytes of the value (big-endian, reinterpreted as
signed; a decode error when the value is shorter than 8 bytes), and a
non-empty remainder is directed by its leading flag byte: INT_FLAG and
UINT_FLAG read the following 8 bytes big-endian (reinterpreted as
signed; a decode error when fewer than 8 bytes follow), and any other
flag is a decode error. -/
theorem c2_old_collation_int_handle (D : RowFormatDecoder)
    (impl : IndexScanExecutorImpl) (key value : Bytes)
    (cols : List LazyBatchColumn) (rem : Bytes)
    (pre1 : List LazyBatchColumn) (old : List (Option Int))
    (hkey : check_index_key key = true)
    (hklen : PREFIX_LEN + ID_LEN ≤ key.length)
    (hlen : value.length ≤ MAX_OLD_ENCODED_VALUE_LEN)
    (hstrat : impl.decode_handle_strategy = .DecodeIntHandle)
    (hkcols : impl.columns_id_without_handle.length ≤ cols.length)
    (hex : extract_columns_from_datum_format (key.drop (PREFIX_LEN + ID_LEN))
      (cols.take impl.columns_id_without_handle.length) = (.ok, rem, pre1))
    (hold : (pre1 ++ cols.drop impl.columns_id_without_handle.length)[
      impl.columns_id_without_handle.length]? = some (.decodedInt old)) :
    (rem = [] → 8 ≤ value.length →
      process_kv_pair D impl key value cols =
        (.ok, (pre1 ++ cols.drop impl.columns_id_without_handle.length).set
          impl.columns_id_without_handle.length
          (.decodedInt (old ++ [some (toSigned (beNat (value.take 8)))])))) ∧
    (rem = [] → value.length < 8 →
      (process_kv_pair D impl key value cols).1.isDecodeErr = true) ∧
    (∀ flag r, rem = flag :: r →
      (flag = INT_FLAG → 8 ≤ r.length →
        process_kv_pair D impl key value cols =
          (.ok, (pre1 ++ cols.drop impl.columns_id_without_handle.length).set
            impl.columns_id_without_handle.length
            (.decodedInt (old ++ [some (toSigned (beNat (r.take 8)))])))) ∧
      (flag = UINT_FLAG → 8 ≤ r.length →
        process_kv_pair D impl key value cols =
          (.ok, (pre1 ++ cols.drop impl.columns_id_without_handle.length).set
            impl.columns_id_without_handle.length
            (.decodedInt (old ++ [some (toSigned (beNat (r.take 8)))])))) ∧
      ((flag = INT_FLAG ∨ flag = UINT_FLAG) → r.length < 8 →
        (process_kv_pair D impl key value cols).1.isDecodeErr = true) ∧
      (flag ≠ INT_FLAG → flag ≠ UINT_FLAG →
        (process_kv_pair D impl key value cols).1.isDecodeErr = true)) := by
  have hred : process_kv_pair D impl key value cols =
      (if rem = [] then
        match decode_handle_from_value value with
        | .ok h =>
          pushIntAt (pre1 ++ cols.drop impl.columns_id_without_handle.length)
            impl.columns_id_without_handle.length h
        | .err m =>
          (.err m, pre1 ++ cols.drop impl.columns_id_without_handle.length)
        | .fatal m =>
          (.fatal m, pre1 ++ cols.drop impl.columns_id_without_handle.length)
      else
        match decode_handle_from_key rem with
        | .ok h =>
          pushIntAt (pre1 ++ cols.drop impl.columns_id_without_handle.length)
            impl.columns_id_without_handle.length h
        | .err m =>
          (.err m, pre1 ++ cols.drop impl.columns_id_without_handle.length)
        | .fatal m =>
          (.fatal m, pre1 ++ cols.drop impl.columns_id_without_handle.length)) := by
    rw [process_kv_pair_old_dispatch D impl key value cols hkey hklen hlen]
    simp only [process_old_collation_kv, if_pos hkcols, hex, hstrat]
  refine ⟨?_, ?_, ?_⟩
  · intro hrem h8
    rw [hred, if_pos hrem, decode_handle_from_value_long value h8]
    exact pushIntAt_of_decoded _ _ old _ hold
  · intro hrem h8
    rw [hred, if_pos hrem, decode_handle_from_value_short value h8]
    rfl
  · intro flag r hfr
    subst hfr
    have hne : ¬(flag :: r = ([] : Bytes)) := by simp
    refine ⟨?_, ?_, ?_, ?_⟩
    · intro hf h8
      subst hf
      rw [hred, if_neg hne, decode_handle_from_key_int r h8]
      exact pushIntAt_of_decoded _ _ old _ hold
    · intro hf h8
      subst hf
      rw [hred, if_neg hne, decode_handle_from_key_uint r h8]
      exact pushIntAt_of_decoded _ _ old _ hold
    · intro hf h8
      have hshort := decode_handle_from_key_short flag r hf h8
      rw [hred, if_neg hne]
      rcases hdec : decode_handle_from_key (flag :: r) with h | m | m
      · rw [hdec] at hshort
        simp [RRes.isErrRes] at hshort
      · rfl
      · rw [hdec] at hshort
        simp [RRes.isErrRes] at hshort
    · intro h1 h2
      rw [hred, if_neg hne, decode_handle_from_key_bad flag r h1 h2]
      rfl

/-- C2 witness: a unique old-collation pair — exhausted key payload,
handle 5 read from the 8-byte value. -/
theorem c2_witness :
    process_kv_pair exDecoder
      { schemaLen := 2, columns_id_without_handle := [1],
        decode_handle_strategy := .DecodeIntHandle }
      (exKey ++ [3, 0, 0, 0, 0, 0, 0, 0, 7]) [0, 0, 0, 0, 0, 0, 0, 5]
      [LazyBatchColumn.raw [], LazyBatchColumn.decodedInt []] =
      (.ok, [LazyBatchColumn.raw [[3, 0, 0, 0, 0, 0, 0, 0, 7]],
             LazyBatchColumn.decodedInt [some 5]]) := by
  have h := (c2_old_collation_int_handle exDecoder
    { schemaLen := 2, columns_id_without_handle := [1],
      decode_handle_strategy := .DecodeIntHandle }
    (exKey ++ [3, 0, 0, 0, 0, 0, 0, 0, 7]) [0, 0, 0, 0, 0, 0, 0, 5]
    [LazyBatchColumn.raw [], LazyBatchColumn.decodedInt []] []
    [LazyBatchColumn.raw [[3, 0, 0, 0, 0, 0, 0, 0, 7]]] []
    (by decide) (by decide) (by decide) rfl (by decide) (by decide)
    (by decide)).1 rfl (by decide)
  rw [h]
  decide

/-- C4: for a value classified as unique-common-handle (long, first
byte at most 1, second byte the common-handle flag) under the
common-handle strategy, with handle_len the 2-byte big-endian integer
at offset 2: a handle end offset 4 + handle_len beyond the value length
is rejected with a decode error and untouched columns; otherwise the
outcome depends on the decoder only through the bytes from the handle
end offset onward (and not on the decoder at all when no such bytes
remain), and on success the handle containers are exactly the result of
sequential datum extraction of value[4 .. 4+handle_len] into the
original trailing containers. -/
theorem c4_unique_common_handle_layout (impl : IndexScanExecutorImpl)
    (key value : Bytes) (b0 b1 : Nat) (cols : List LazyBatchColumn)
    (hkey : check_index_key key = true)
    (hklen : PREFIX_LEN + ID_LEN ≤ key.length)
    (hlen : MAX_OLD_ENCODED_VALUE_LEN < value.length)
    (hv0 : value[0]? = some b0) (hv1 : value[1]? = some b1)
    (hb0 : b0 ≤ 1) (hb1 : b1 = INDEX_VALUE_COMMON_HANDLE_FLAG)
    (hstrat : impl.decode_handle_strategy = .DecodeCommonHandle) :
    (value.length < 4 + beNat ((value.drop 2).take 2) →
      ∀ D : RowFormatDecoder,
        (process_kv_pair D impl key value cols).1.isDecodeErr = true ∧
        (process_kv_pair D impl key value cols).2 = cols) ∧
    (4 + beNat ((value.drop 2).take 2) ≤ value.length →
      (∀ D1 D2 : RowFormatDecoder,
        D1 (value.drop (4 + beNat ((value.drop 2).take 2))) =
          D2 (value.drop (4 + beNat ((value.drop 2).take 2))) →
        process_kv_pair D1 impl key value cols =
          process_kv_pair D2 impl key value cols) ∧
      (4 + beNat ((value.drop 2).take 2) = value.length →
        ∀ D1 D2 : RowFormatDecoder,
          process_kv_pair D1 impl key value cols =
            process_kv_pair D2 impl key value cols) ∧
      (∀ (D : RowFormatDecoder) (cols' : List LazyBatchColumn),
        process_kv_pair D impl key value cols = (.ok, cols') →
        ∃ r, extract_columns_from_datum_format
          ((value.drop 4).take (4 + beNat ((value.drop 2).take 2) - 4))
          (cols.drop impl.columns_id_without_handle.length) =
          (.ok, r, cols'.drop impl.columns_id_without_handle.length))) := by
  have hu16 : read_u16 (value.drop 2) = .ok (beNat ((value.drop 2).take 2)) := by
    simp only [MAX_OLD_ENCODED_VALUE_LEN] at hlen
    simp [read_u16]
    omega
  constructor
  · intro hbig D
    rw [process_kv_pair_uch_dispatch D impl key value b0 b1 cols hkey hklen
      hlen hv0 hv1 hb0 hb1 hstrat]
    simp [process_unique_common_handle_kv, hu16, hbig, RStatus.isDecodeErr]
  · intro hle
    refine ⟨?_, ?_, ?_⟩
    · intro D1 D2 hD
      rw [process_kv_pair_uch_dispatch D1 impl key value b0 b1 cols hkey hklen
        hlen hv0 hv1 hb0 hb1 hstrat,
        process_kv_pair_uch_dispatch D2 impl key value b0 b1 cols hkey hklen
        hlen hv0 hv1 hb0 hb1 hstrat]
      by_cases hlt : 4 + beNat ((value.drop 2).take 2) < value.length
      · simp only [process_unique_common_handle_kv, hu16,
          if_neg (Nat.not_lt.mpr hle), if_pos hlt,
          extract_columns_from_row_format]
        rw [hD]
      · simp only [process_unique_common_handle_kv, hu16,
          if_neg (Nat.not_lt.mpr hle), if_neg hlt]
    · intro _ D1 D2
      have hlt : ¬ 4 + beNat ((value.drop 2).take 2) < value.length := by
        omega
      rw [process_kv_pair_uch_dispatch D1 impl key value b0 b1 cols hkey hklen
        hlen hv0 hv1 hb0 hb1 hstrat,
        process_kv_pair_uch_dispatch D2 impl key value b0 b1 cols hkey hklen
        hlen hv0 hv1 hb0 hb1 hstrat]
      simp only [process_unique_common_handle_kv, hu16,
        if_neg (Nat.not_lt.mpr hle), if_neg hlt]
    · intro D cols' hres
      rw [process_kv_pair_uch_dispatch D impl key value b0 b1 cols hkey hklen
        hlen hv0 hv1 hb0 hb1 hstrat] at hres
      simp only [process_unique_common_handle_kv, hu16,
        if_neg (Nat.not_lt.mpr hle)] at hres
      by_cases hlt : 4 + beNat ((value.drop 2).take 2) < value.length
      · rcases hstep : extract_columns_from_row_format D
            (value.drop (4 + beNat ((value.drop 2).take 2)))
            impl.columns_id_without_handle cols with ⟨st1, cols1⟩
        rw [if_pos hlt, hstep] at hres
        cases st1 with
        | err m => simp at hres
        | fatal m => simp at hres
        | ok =>
          by_cases hk1 : impl.columns_id_without_handle.length ≤ cols1.length
          · rw [if_pos hk1] at hres
            rcases hch : extract_columns_from_datum_format
                ((value.drop 4).take (4 + beNat ((value.drop 2).take 2) - 4))
                (cols1.drop impl.columns_id_without_handle.length)
              with ⟨st2, rem2, suf1⟩
            rw [hch] at hres
            cases st2 with
            | err m => simp at hres
            | fatal m => simp at hres
            | ok =>
              have hdropeq := ecrf_drop D
                (value.drop (4 + beNat ((value.drop 2).take 2)))
                impl.columns_id_without_handle cols
              rw [hstep] at hdropeq
              have hcols' :
                  cols' = cols1.take impl.columns_id_without_handle.length ++
                    suf1 := by
                simpa using hres.symm
              refine ⟨rem2, ?_⟩
              rw [← hdropeq, hch, hcols', List.drop_left']
              rw [List.length_take]
              omega
          · rw [if_neg hk1] at hres
            simp at hres
      · rw [if_neg hlt] at hres
        by_cases hk0 : impl.columns_id_without_handle.length ≤ cols.length
        · rw [if_pos hk0] at hres
          rcases hpre : extract_columns_from_datum_format
              (key.drop (PREFIX_LEN + ID_LEN))
              (cols.take impl.columns_id_without_handle.length)
            with ⟨st1, rem1, pre1⟩
          rw [hpre] at hres
          cases st1 with
          | err m => simp at hres
          | fatal m => simp at hres
          | ok =>
            have hpre1len : pre1.length = impl.columns_id_without_handle.length := by
              have hl1 := edf_length (key.drop (PREFIX_LEN + ID_LEN))
                (cols.take impl.columns_id_without_handle.length)
              rw [hpre] at hl1
              simp only [List.length_take] at hl1
              simpa [Nat.min_eq_left hk0] using hl1
            have hdropeq :
                (pre1 ++ cols.drop impl.columns_id_without_handle.length).drop
                  impl.columns_id_without_handle.length =
                  cols.drop impl.columns_id_without_handle.length :=
              List.drop_left' hpre1len
            by_cases hk1 : impl.columns_id_without_handle.length ≤
                (pre1 ++ cols.drop impl.columns_id_without_handle.length).length
            · rw [if_pos hk1] at hres
              rcases hch : extract_columns_from_datum_format
                  ((value.drop 4).take (4 + beNat ((value.drop 2).take 2) - 4))
                  ((pre1 ++ cols.drop impl.columns_id_without_handle.length).drop
                    impl.columns_id_without_handle.length)
                with ⟨st2, rem2, suf1⟩
              rw [hch] at hres
              cases st2 with
              | err m => simp at hres
              | fatal m => simp at hres
              | ok =>
                have hcols' : cols' =
                    (pre1 ++ cols.drop
                      impl.columns_id_without_handle.length).take
                      impl.columns_id_without_handle.length ++ suf1 := by
                  simpa using hres.symm
                refine ⟨rem2, ?_⟩
                rw [← hdropeq, hch, hcols', List.drop_left']
                rw [List.length_take]
                omega
            · rw [if_neg hk1] at hres
              simp at hres
        · rw [if_neg hk0] at hres
          simp at hres

/-- C4 witness: a concrete old-collation unique-common-handle pair
(no restore data) — the handle container receives exactly the datum
extracted from the handle region of the value. -/
theorem c4_witness :
    ∃ r, extract_columns_from_datum_format
      ((([0, 127, 0, 9, 3, 0, 0, 0, 0, 0, 0, 0, 7] : Bytes).drop 4).take
        (4 + beNat ((([0, 127, 0, 9, 3, 0, 0, 0, 0, 0, 0, 0, 7] : Bytes).drop
          2).take 2) - 4))
      (([LazyBatchColumn.raw [], LazyBatchColumn.raw []] :
        List LazyBatchColumn).drop 1) =
      (.ok, r, ([LazyBatchColumn.raw [[3, 0, 0, 0, 0, 0, 0, 0, 7]],
        LazyBatchColumn.raw [[3, 0, 0, 0, 0, 0, 0, 0, 7]]] :
        List LazyBatchColumn).drop 1) :=
  ((c4_unique_common_handle_layout
    { schemaLen := 2, columns_id_without_handle := [1],
      decode_handle_strategy := .DecodeCommonHandle }
    (exKey ++ [3, 0, 0, 0, 0, 0, 0, 0, 7])
    [0, 127, 0, 9, 3, 0, 0, 0, 0, 0, 0, 0, 7] 0 127
    [LazyBatchColumn.raw [], LazyBatchColumn.raw []]
    (by decide) (by decide) (by decide) (by decide) (by decide) (by decide)
    rfl rfl).2 (by decide)).2.2 exDecoder
    [LazyBatchColumn.raw [[3, 0, 0, 0, 0, 0, 0, 0, 7]],
     LazyBatchColumn.raw [[3, 0, 0, 0, 0, 0, 0, 0, 7]]]
    (by decide)

/-- Replacing the first k containers of a batch leaves the last
container unchanged when more than k containers exist. -/
theorem prefix_append_drop_last (pre1 cols : List LazyBatchColumn) (k : Nat)
    (hk : k < cols.length) :
    (pre1 ++ cols.drop k).getLast? = cols.getLast? := by
  rw [List.getLast?_append_of_ne_nil, getLast?_drop_of_lt cols k hk]
  intro hnil
  rw [List.drop_eq_nil_iff] at hnil
  omega

/-- Two lists of equal length agreeing past a position below their
length have the same last element. -/
theorem last_of_drop_eq (l l' : List LazyBatchColumn) (k : Nat)
    (hlen : l.length = l'.length) (hk : k < l'.length)
    (hdrop : l.drop k = l'.drop k) : l.getLast? = l'.getLast? := by
  rw [← getLast?_drop_of_lt l k (by omega), ← getLast?_drop_of_lt l' k hk,
    hdrop]

/-- A failed extraction of the leading index columns leaves the last
container of the whole batch unchanged. -/
theorem prefix_err_last (kp : Bytes) (cols pre1 : List LazyBatchColumn)
    (k : Nat) (st : RStatus) (rem : Bytes)
    (hk : k ≤ cols.length)
    (hpre : extract_columns_from_datum_format kp (cols.take k) =
      (st, rem, pre1))
    (hne : st ≠ .ok) :
    (pre1 ++ cols.drop k).getLast? = cols.getLast? := by
  by_cases hlt : k < cols.length
  · exact prefix_append_drop_last pre1 cols k hlt
  · have hkeq : k = cols.length := by omega
    have h1 := edf_last kp (cols.take k) (by rw [hpre]; exact hne)
    rw [hpre] at h1
    have hdrop : cols.drop k = ([] : List LazyBatchColumn) := by
      rw [List.drop_eq_nil_iff]
      omega
    rw [hdrop, List.append_nil]
    simpa [hkeq, List.take_length] using h1

/-- A failed extraction of the trailing handle columns leaves the last
container of the whole batch unchanged. -/
theorem suffix_err_last (ch : Bytes) (cols1 suf1 : List LazyBatchColumn)
    (k : Nat) (st : RStatus) (rem : Bytes) (hk : k < cols1.length)
    (hch : extract_columns_from_datum_format ch (cols1.drop k) =
      (st, rem, suf1))
    (hne : st ≠ .ok) :
    (cols1.take k ++ suf1).getLast? = cols1.getLast? := by
  have h1 := edf_last ch (cols1.drop k) (by rw [hch]; exact hne)
  rw [hch] at h1
  have hlen := edf_length ch (cols1.drop k)
  rw [hch] at hlen
  rw [List.getLast?_append_of_ne_nil]
  · rw [h1]
    exact getLast?_drop_of_lt cols1 k hk
  · intro hnil
    rw [hnil] at hlen
    simp only [List.length_nil, List.length_drop] at hlen
    omega

/-- An old-collation decode error preserves the batch size and the
last container (given room past the interested columns when a handle
is decoded). -/
theorem oc_err (impl : IndexScanExecutorImpl) (kp value : Bytes)
    (cols : List LazyBatchColumn)
    (hk : impl.decode_handle_strategy ≠ .NoDecode →
      impl.columns_id_without_handle.length < cols.length)
    (herr : (process_old_collation_kv impl kp value cols).1.isDecodeErr = true) :
    (process_old_collation_kv impl kp value cols).2.length = cols.length ∧
    (process_old_collation_kv impl kp value cols).2.getLast? = cols.getLast? := by
  by_cases hkle : impl.columns_id_without_handle.length ≤ cols.length
  · rcases hpre : extract_columns_from_datum_format kp
        (cols.take impl.columns_id_without_handle.length)
      with ⟨st1, rem1, pre1⟩
    have hplen := edf_length kp
      (cols.take impl.columns_id_without_handle.length)
    rw [hpre] at hplen
    simp only [List.length_take] at hplen
    have hlen1 : (pre1 ++
        cols.drop impl.columns_id_without_handle.length).length =
        cols.length := by
      simp only [List.length_append, List.length_drop]
      omega
    simp only [process_old_collation_kv, if_pos hkle, hpre] at herr ⊢
    cases st1 with
    | err m =>
      exact ⟨hlen1,
        prefix_err_last kp cols pre1 _ _ rem1 hkle hpre (by simp)⟩
    | fatal m => simp [RStatus.isDecodeErr] at herr
    | ok =>
      cases hst : impl.decode_handle_strategy with
      | NoDecode =>
        rw [hst] at herr
        simp [RStatus.isDecodeErr] at herr
      | DecodeIntHandle =>
        rw [hst] at herr
        dsimp only at herr ⊢
        have hklt := hk (by rw [hst]; simp)
        by_cases hrem : rem1 = []
        · rw [if_pos hrem] at herr ⊢
          rcases hdec : decode_handle_from_value value with h | m | m
          · rw [hdec] at herr
            simp [pushIntAt_not_err] at herr
          · exact ⟨hlen1, prefix_append_drop_last pre1 cols _ hklt⟩
          · rw [hdec] at herr
            simp [RStatus.isDecodeErr] at herr
        · rw [if_neg hrem] at herr ⊢
          rcases hdec : decode_handle_from_key rem1 with h | m | m
          · rw [hdec] at herr
            simp [pushIntAt_not_err] at herr
          · exact ⟨hlen1, prefix_append_drop_last pre1 cols _ hklt⟩
          · rw [hdec] at herr
            simp [RStatus.isDecodeErr] at herr
      | DecodeCommonHandle =>
        rw [hst] at herr
        dsimp only at herr ⊢
        have hklt := hk (by rw [hst]; simp)
        have hk1 : impl.columns_id_without_handle.length ≤
            (pre1 ++ cols.drop impl.columns_id_without_handle.length).length := by
          omega
        rw [if_pos hk1] at herr ⊢
        rcases hch : extract_columns_from_datum_format rem1
            ((pre1 ++ cols.drop impl.columns_id_without_handle.length).drop
              impl.columns_id_without_handle.length)
          with ⟨st2, rem2, suf1⟩
        rw [hch] at herr
        dsimp only at herr ⊢
        have hslen := edf_length rem1
          ((pre1 ++ cols.drop impl.columns_id_without_handle.length).drop
            impl.columns_id_without_handle.length)
        rw [hch] at hslen
        simp only [List.length_drop] at hslen
        cases st2 with
        | ok => simp [RStatus.isDecodeErr] at herr
        | fatal m => simp [RStatus.isDecodeErr] at herr
        | err m =>
          constructor
          · simp only [List.length_append, List.length_take]
            omega
          · have hlast1 := suffix_err_last rem1
              (pre1 ++ cols.drop impl.columns_id_without_handle.length) suf1
              impl.columns_id_without_handle.length _ rem2 (by omega) hch
              (by simp)
            rw [hlast1]
            exact prefix_append_drop_last pre1 cols _ hklt
  · simp [process_old_collation_kv, hkle, RStatus.isDecodeErr] at herr

/-- A new-collation decode error preserves the batch size and the last
container (given room past the interested columns when a handle is
decoded). -/
theorem nc_err (D : RowFormatDecoder) (impl : IndexScanExecutorImpl)
    (kp value : Bytes) (cols : List LazyBatchColumn)
    (hk : impl.decode_handle_strategy ≠ .NoDecode →
      impl.columns_id_without_handle.length < cols.length)
    (herr : (process_new_collation_kv D impl kp value cols).1.isDecodeErr = true) :
    (process_new_collation_kv D impl kp value cols).2.length = cols.length ∧
    (process_new_collation_kv D impl kp value cols).2.getLast? = cols.getLast? := by
  rcases hv0 : value[0]? with _ | t
  · simp [process_new_collation_kv, hv0, RStatus.isDecodeErr] at herr
  · by_cases hgt : t > value.length
    · simp only [process_new_collation_kv, hv0] at herr ⊢
      rw [if_pos hgt] at herr ⊢
      constructor <;> trivial
    · by_cases heq : t = value.length
      · simp only [process_new_collation_kv, hv0] at herr
        rw [if_neg hgt, if_pos heq] at herr
        simp [RStatus.isDecodeErr] at herr
      · rcases hex : extract_columns_from_row_format D
            ((value.drop 1).take (value.length - t - 1))
            impl.columns_id_without_handle cols with ⟨st1, cols1⟩
        have hclen : cols1.length = cols.length := by
          have := ecrf_length D ((value.drop 1).take (value.length - t - 1))
            impl.columns_id_without_handle cols
          rw [hex] at this
          exact this
        have hcdrop : cols1.drop impl.columns_id_without_handle.length =
            cols.drop impl.columns_id_without_handle.length := by
          have := ecrf_drop D ((value.drop 1).take (value.length - t - 1))
            impl.columns_id_without_handle cols
          rw [hex] at this
          exact this
        simp only [process_new_collation_kv, hv0, if_neg hgt, if_neg heq] at herr ⊢
        try simp only [hex] at herr ⊢
        cases st1 with
        | err m =>
          have hl := ecrf_last D ((value.drop 1).take (value.length - t - 1))
            impl.columns_id_without_handle cols
            (by rw [hex]; simp [RStatus.isDecodeErr])
          rw [hex] at hl
          exact ⟨hclen, hl⟩
        | fatal m => simp [RStatus.isDecodeErr] at herr
        | ok =>
          cases hst : impl.decode_handle_strategy with
          | NoDecode =>
            try simp only [hst] at herr ⊢
            simp [RStatus.isDecodeErr] at herr
          | DecodeIntHandle =>
            try simp only [hst] at herr ⊢
            have hklt := hk (by rw [hst]; simp)
            have hlast1 : cols1.getLast? = cols.getLast? :=
              last_of_drop_eq cols1 cols impl.columns_id_without_handle.length
                hclen (by omega) hcdrop
            by_cases h8 : t < 8
            · rw [if_pos h8] at herr ⊢
              rcases hskip : skip_n kp impl.columns_id_without_handle.length
                with m | rest
              · try simp only [hskip] at herr ⊢
                exact ⟨hclen, hlast1⟩
              · try simp only [hskip] at herr ⊢
                rcases hdec : decode_handle_from_key rest with h | m | m
                · try simp only [hdec] at herr
                  simp [pushIntAt_not_err] at herr
                · try simp only [hdec] at herr ⊢
                  exact ⟨hclen, hlast1⟩
                · try simp only [hdec] at herr
                  simp [RStatus.isDecodeErr] at herr
            · rw [if_neg h8] at herr ⊢
              rcases hdec : decode_handle_from_value
                  (value.drop (value.length - t)) with h | m | m
              · try simp only [hdec] at herr
                simp [pushIntAt_not_err] at herr
              · try simp only [hdec] at herr ⊢
                exact ⟨hclen, hlast1⟩
              · try simp only [hdec] at herr
                simp [RStatus.isDecodeErr] at herr
          | DecodeCommonHandle =>
            try simp only [hst] at herr ⊢
            have hklt := hk (by rw [hst]; simp)
            have hlast1 : cols1.getLast? = cols.getLast? :=
              last_of_drop_eq cols1 cols impl.columns_id_without_handle.length
                hclen (by omega) hcdrop
            rcases hskip : skip_n kp impl.columns_id_without_handle.length
              with m | rest
            · try simp only [hskip] at herr ⊢
              exact ⟨hclen, hlast1⟩
            · try simp only [hskip] at herr ⊢
              have hk1 : impl.columns_id_without_handle.length ≤ cols1.length := by
                omega
              rw [if_pos hk1] at herr ⊢
              rcases hch : extract_columns_from_datum_format rest
                  (cols1.drop impl.columns_id_without_handle.length)
                with ⟨st2, rem2, suf1⟩
              try simp only [hch] at herr ⊢
              have hslen := edf_length rest
                (cols1.drop impl.columns_id_without_handle.length)
              rw [hch] at hslen
              simp only [List.length_drop] at hslen
              cases st2 with
              | ok => simp [RStatus.isDecodeErr] at herr
              | fatal m => simp [RStatus.isDecodeErr] at herr
              | err m =>
                constructor
                · show (cols1.take impl.columns_id_without_handle.length ++
                    suf1).length = cols.length
                  simp only [List.length_append, List.length_take]
                  omega
                · show (cols1.take impl.columns_id_without_handle.length ++
                    suf1).getLast? = cols.getLast?
                  have hlast2 := suffix_err_last rest cols1 suf1
                    impl.columns_id_without_handle.length _ rem2 (by omega)
                    hch (by simp)
                  rw [hlast2]
                  exact hlast1

/-- A unique-common-handle decode error preserves the batch size and
the last container (given room past the interested columns). -/
theorem uch_err (D : RowFormatDecoder) (impl : IndexScanExecutorImpl)
    (kp value : Bytes) (cols : List LazyBatchColumn)
    (hk : impl.columns_id_without_handle.length < cols.length)
    (herr : (process_unique_common_handle_kv D impl kp value cols).1.isDecodeErr
      = true) :
    (process_unique_common_handle_kv D impl kp value cols).2.length =
      cols.length ∧
    (process_unique_common_handle_kv D impl kp value cols).2.getLast? =
      cols.getLast? := by
  rcases hu16 : read_u16 (value.drop 2) with m | hl
  · simp only [process_unique_common_handle_kv] at herr ⊢
    try simp only [hu16] at herr ⊢
    constructor <;> trivial
  · simp only [process_unique_common_handle_kv] at herr ⊢
    try simp only [hu16] at herr ⊢
    by_cases hbig : 4 + hl > value.length
    · rw [if_pos hbig] at herr ⊢
      constructor <;> trivial
    · rw [if_neg hbig] at herr ⊢
      by_cases hlt : 4 + hl < value.length
      · rcases hex : extract_columns_from_row_format D (value.drop (4 + hl))
            impl.columns_id_without_handle cols with ⟨st1, cols1⟩
        have hclen : cols1.length = cols.length := by
          have := ecrf_length D (value.drop (4 + hl))
            impl.columns_id_without_handle cols
          rw [hex] at this
          exact this
        have hcdrop : cols1.drop impl.columns_id_without_handle.length =
            cols.drop impl.columns_id_without_handle.length := by
          have := ecrf_drop D (value.drop (4 + hl))
            impl.columns_id_without_handle cols
          rw [hex] at this
          exact this
        rw [if_pos hlt] at herr ⊢
        try simp only [hex] at herr ⊢
        cases st1 with
        | err m =>
          have hl2 := ecrf_last D (value.drop (4 + hl))
            impl.columns_id_without_handle cols
            (by rw [hex]; simp [RStatus.isDecodeErr])
          rw [hex] at hl2
          exact ⟨hclen, hl2⟩
        | fatal m => simp [RStatus.isDecodeErr] at herr
        | ok =>
          have hlast1 : cols1.getLast? = cols.getLast? :=
            last_of_drop_eq cols1 cols impl.columns_id_without_handle.length
              hclen (by omega) hcdrop
          have hk1 : impl.columns_id_without_handle.length ≤ cols1.length := by
            omega
          rw [if_pos hk1] at herr ⊢
          rcases hch : extract_columns_from_datum_format
              ((value.drop 4).take (4 + hl - 4))
              (cols1.drop impl.columns_id_without_handle.length)
            with ⟨st2, rem2, suf1⟩
          try simp only [hch] at herr ⊢
          have hslen := edf_length ((value.drop 4).take (4 + hl - 4))
            (cols1.drop impl.columns_id_without_handle.length)
          rw [hch] at hslen
          simp only [List.length_drop] at hslen
          cases st2 with
          | ok => simp [RStatus.isDecodeErr] at herr
          | fatal m => simp [RStatus.isDecodeErr] at herr
          | err m =>
            constructor
            · show (cols1.take impl.columns_id_without_handle.length ++
                suf1).length = cols.length
              simp only [List.length_append, List.length_take]
              omega
            · show (cols1.take impl.columns_id_without_handle.length ++
                suf1).getLast? = cols.getLast?
              have hlast2 := suffix_err_last ((value.drop 4).take (4 + hl - 4))
                cols1 suf1 impl.columns_id_without_handle.length _ rem2
                (by omega) hch (by simp)
              rw [hlast2]
              exact hlast1
      · rw [if_neg hlt] at herr ⊢
        have hkle : impl.columns_id_without_handle.length ≤ cols.length := by
          omega
        rw [if_pos hkle] at herr ⊢
        rcases hpre : extract_columns_from_datum_format kp
            (cols.take impl.columns_id_without_handle.length)
          with ⟨st1, rem1, pre1⟩
        try simp only [hpre] at herr ⊢
        have hplen := edf_length kp
          (cols.take impl.columns_id_without_handle.length)
        rw [hpre] at hplen
        simp only [List.length_take] at hplen
        have hlen1 : (pre1 ++
            cols.drop impl.columns_id_without_handle.length).length =
            cols.length := by
          simp only [List.length_append, List.length_drop]
          omega
        cases st1 with
        | err m =>
          exact ⟨hlen1,
            prefix_err_last kp cols pre1 _ _ rem1 hkle hpre (by simp)⟩
        | fatal m => simp [RStatus.isDecodeErr] at herr
        | ok =>
          have hlast1 : (pre1 ++
              cols.drop impl.columns_id_without_handle.length).getLast? =
              cols.getLast? :=
            prefix_append_drop_last pre1 cols _ hk
          have hk1 : impl.columns_id_without_handle.length ≤
              (pre1 ++ cols.drop impl.columns_id_without_handle.length).length := by
            omega
          rw [if_pos hk1] at herr ⊢
          rcases hch : extract_columns_from_datum_format
              ((value.drop 4).take (4 + hl - 4))
              ((pre1 ++ cols.drop impl.columns_id_without_handle.length).drop
                impl.columns_id_without_handle.length)
            with ⟨st2, rem2, suf1⟩
          try simp only [hch] at herr ⊢
          have hslen := edf_length ((value.drop 4).take (4 + hl - 4))
            ((pre1 ++ cols.drop impl.columns_id_without_handle.length).drop
              impl.columns_id_without_handle.length)
          rw [hch] at hslen
          simp only [List.length_drop] at hslen
          cases st2 with
          | ok => simp [RStatus.isDecodeErr] at herr
          | fatal m => simp [RStatus.isDecodeErr] at herr
          | err m =>
            constructor
            · show ((pre1 ++
                cols.drop impl.columns_id_without_handle.length).take
                  impl.columns_id_without_handle.length ++ suf1).length =
                cols.length
              simp only [List.length_append, List.length_take]
              omega
            · show ((pre1 ++
                cols.drop impl.columns_id_without_handle.length).take
                  impl.columns_id_without_handle.length ++ suf1).getLast? =
                cols.getLast?
              have hlast2 := suffix_err_last ((value.drop 4).take (4 + hl - 4))
                (pre1 ++ cols.drop impl.columns_id_without_handle.length) suf1
                impl.columns_id_without_handle.length _ rem2 (by omega) hch
                (by simp)
              rw [hlast2]
              exact hlast1

/-- C5 (amended): a decode error commits no complete row — the batch
keeps its size and its last container is unchanged by the failing call
(containers before the failing column may retain the pair's partial
appends, exhibited by the counterexample). -/
theorem c5_no_complete_row_on_error (D : RowFormatDecoder)
    (impl : IndexScanExecutorImpl) (key value : Bytes)
    (cols : List LazyBatchColumn)
    (hk : impl.decode_handle_strategy ≠ .NoDecode →
      impl.columns_id_without_handle.length < cols.length)
    (herr : (process_kv_pair D impl key value cols).1.isDecodeErr = true) :
    (process_kv_pair D impl key value cols).2.length = cols.length ∧
    (process_kv_pair D impl key value cols).2.getLast? = cols.getLast? := by
  by_cases hkey : check_index_key key = true
  · by_cases hklen : key.length < PREFIX_LEN + ID_LEN
    · simp [process_kv_pair, hkey, hklen, RStatus.isDecodeErr] at herr
    · have hklen2 : PREFIX_LEN + ID_LEN ≤ key.length := by omega
      by_cases hvlen : value.length > MAX_OLD_ENCODED_VALUE_LEN
      · rcases hv0 : value[0]? with _ | b0
        · simp [process_kv_pair, hkey, hklen, hvlen, hv0,
            RStatus.isDecodeErr] at herr
        · rcases hv1 : value[1]? with _ | b1
          · simp [process_kv_pair, hkey, hklen, hvlen, hv0, hv1,
              RStatus.isDecodeErr] at herr
          · by_cases hpat : b0 ≤ 1 ∧ b1 = INDEX_VALUE_COMMON_HANDLE_FLAG
            · by_cases hstrat : impl.decode_handle_strategy = .DecodeCommonHandle
              · rw [process_kv_pair_uch_dispatch D impl key value b0 b1 cols
                  hkey hklen2 hvlen hv0 hv1 hpat.1 hpat.2 hstrat] at herr ⊢
                exact uch_err D impl _ value cols
                  (hk (by rw [hstrat]; simp)) herr
              · simp only [process_kv_pair, hkey, if_true, if_neg hklen,
                  if_pos hvlen, hv0, hv1, if_pos hpat, if_pos hstrat]
                constructor <;> trivial
            · rw [process_kv_pair_new_dispatch D impl key value b0 b1 cols
                hkey hklen2 hvlen hv0 hv1 hpat] at herr ⊢
              exact nc_err D impl _ value cols hk herr
      · have hvle : value.length ≤ MAX_OLD_ENCODED_VALUE_LEN := by omega
        rw [process_kv_pair_old_dispatch D impl key value cols hkey hklen2
          hvle] at herr ⊢
        exact oc_err impl _ value cols hk herr
  · simp only [process_kv_pair, if_neg hkey]
    constructor <;> trivial

/-- C5 witness: at the counterexample input — one datum for two
interested columns — the failing call keeps both containers and leaves
the last one untouched. -/
theorem c5_witness :
    (process_kv_pair exDecoder
      { schemaLen := 2, columns_id_without_handle := [1, 2],
        decode_handle_strategy := .NoDecode }
      (exKey ++ [3, 0, 0, 0, 0, 0, 0, 0, 7]) []
      [LazyBatchColumn.raw [], LazyBatchColumn.raw []]).2.length = 2 ∧
    (process_kv_pair exDecoder
      { schemaLen := 2, columns_id_without_handle := [1, 2],
        decode_handle_strategy := .NoDecode }
      (exKey ++ [3, 0, 0, 0, 0, 0, 0, 0, 7]) []
      [LazyBatchColumn.raw [], LazyBatchColumn.raw []]).2.getLast? =
      some (LazyBatchColumn.raw []) :=
  c5_no_complete_row_on_error exDecoder
    { schemaLen := 2, columns_id_without_handle := [1, 2],
      decode_handle_strategy := .NoDecode }
    (exKey ++ [3, 0, 0, 0, 0, 0, 0, 0, 7]) []
    [LazyBatchColumn.raw [], LazyBatchColumn.raw []]
    (by intro h; exact absurd rfl h) (by decide)

/-- Taking a longer segment keeps the entries below the cut. -/
theorem getElem?_take_of_lt {α : Type} (l : List α) (n m : Nat) (h : m < n) :
    (l.take n)[m]? = l[m]? := by
  rw [List.getElem?_take]
  simp [h]

/-- An index inside the left part of an append reads the left part. -/
theorem getElem?_append_left_of_lt {α : Type} (l1 l2 : List α) (i : Nat)
    (h : i < l1.length) : (l1 ++ l2)[i]? = l1[i]? := by
  rw [List.getElem?_append]
  simp [h]

/-- An index past the left part of an append reads the right part. -/
theorem getElem?_append_shift {α : Type} (l1 l2 : List α) (j : Nat) :
    (l1 ++ l2)[l1.length + j]? = l2[j]? := by
  rw [List.getElem?_append_right (by omega)]
  simp

/-- Field relations established by a successful construction: the
schema width, and the interested-column count per strategy. -/
theorem new_ok_facts (ci : List ColumnInfo) (plen : Nat)
    (impl : IndexScanExecutorImpl)
    (hnew : BatchIndexScanExecutor.new ci plen = .ok impl) :
    impl.schemaLen = ci.length ∧
    (impl.decode_handle_strategy = .NoDecode →
      impl.columns_id_without_handle.length = ci.length) ∧
    (impl.decode_handle_strategy = .DecodeIntHandle →
      impl.columns_id_without_handle.length + 1 = ci.length) ∧
    (impl.decode_handle_strategy = .DecodeCommonHandle →
      impl.columns_id_without_handle.length + plen = ci.length ∧ 0 < plen) := by
  unfold BatchIndexScanExecutor.new at hnew
  rcases hint : (ci.getLast?.map ColumnInfo.pk_handle).getD false with _ | _ <;>
    rcases hpos : decide (0 < plen) with _ | _ <;>
      simp only [hint, hpos] at hnew
  · simp only [newWith] at hnew
    rw [if_neg (by omega)] at hnew
    simp only [Except.ok.injEq] at hnew
    subst hnew
    refine ⟨rfl, ?_, ?_, ?_⟩
    · intro _
      simp
    · intro hc
      cases hc
    · intro hc
      cases hc
  · simp only [newWith] at hnew
    by_cases hgt : plen > ci.length
    · rw [if_pos hgt] at hnew
      cases hnew
    · rw [if_neg hgt] at hnew
      simp only [Except.ok.injEq] at hnew
      subst hnew
      have hpos2 : 0 < plen := of_decide_eq_true hpos
      refine ⟨rfl, ?_, ?_, ?_⟩
      · intro hc
        cases hc
      · intro hc
        cases hc
      · intro _
        constructor
        · simp only [List.length_map, List.length_take]
          omega
        · exact hpos2
  · simp only [newWith] at hnew
    by_cases hgt : 1 > ci.length
    · rw [if_pos hgt] at hnew
      cases hnew
    · rw [if_neg hgt] at hnew
      simp only [Except.ok.injEq] at hnew
      subst hnew
      refine ⟨rfl, ?_, ?_, ?_⟩
      · intro hc
        cases hc
      · intro _
        simp only [List.length_map, List.length_take]
        omega
      · intro hc
        cases hc
  · cases hnew

/-- A successful old-collation decode appends exactly one raw span to
every interested container, one decoded handle under IntHandle, and one
raw span to every trailing container under DecodeCommonHandle, keeping
the batch size. -/
theorem oc_ok (impl : IndexScanExecutorImpl) (kp value : Bytes)
    (cols cols' : List LazyBatchColumn)
    (hres : process_old_collation_kv impl kp value cols = (.ok, cols')) :
    (∀ i, i < impl.columns_id_without_handle.length →
      ∃ rows bs, cols[i]? = some (.raw rows) ∧
        cols'[i]? = some (.raw (rows ++ [bs]))) ∧
    (impl.decode_handle_strategy = .DecodeIntHandle →
      ∃ old h, cols[impl.columns_id_without_handle.length]? =
          some (.decodedInt old) ∧
        cols'[impl.columns_id_without_handle.length]? =
          some (.decodedInt (old ++ [some h]))) ∧
    (impl.decode_handle_strategy = .DecodeCommonHandle →
      ∀ j, impl.columns_id_without_handle.length + j < cols.length →
        ∃ rows bs, cols[impl.columns_id_without_handle.length + j]? =
            some (.raw rows) ∧
          cols'[impl.columns_id_without_handle.length + j]? =
            some (.raw (rows ++ [bs]))) ∧
    cols'.length = cols.length := by
  by_cases hkle : impl.columns_id_without_handle.length ≤ cols.length
  · rcases hpre : extract_columns_from_datum_format kp
        (cols.take impl.columns_id_without_handle.length)
      with ⟨st1, rem1, pre1⟩
    simp only [process_old_collation_kv, if_pos hkle, hpre] at hres
    have hplen : pre1.length = impl.columns_id_without_handle.length := by
      have := edf_length kp (cols.take impl.columns_id_without_handle.length)
      rw [hpre] at this
      simp only [List.length_take] at this
      omega
    cases st1 with
    | err m => simp at hres
    | fatal m => simp at hres
    | ok =>
      have hpref : ∀ i, i < impl.columns_id_without_handle.length →
          ∃ rows bs, cols[i]? = some (.raw rows) ∧
            pre1[i]? = some (.raw (rows ++ [bs])) := by
        intro i hi
        obtain ⟨rows, bs, h1, h2⟩ := edf_ok kp
          (cols.take impl.columns_id_without_handle.length) rem1 pre1 hpre i
          (by simp [List.length_take]; omega)
        rw [getElem?_take_of_lt cols impl.columns_id_without_handle.length i hi]
          at h1
        exact ⟨rows, bs, h1, h2⟩
      have hmid : ∀ i, i < impl.columns_id_without_handle.length →
          (pre1 ++ cols.drop impl.columns_id_without_handle.length)[i]? =
            pre1[i]? := by
        intro i hi
        exact getElem?_append_left_of_lt pre1 _ i (by omega)
      have hmidk : ∀ j, (pre1 ++
          cols.drop impl.columns_id_without_handle.length)[
            impl.columns_id_without_handle.length + j]? =
          cols[impl.columns_id_without_handle.length + j]? := by
        intro j
        calc (pre1 ++ cols.drop impl.columns_id_without_handle.length)[
              impl.columns_id_without_handle.length + j]?
            = (cols.drop impl.columns_id_without_handle.length)[j]? := by
              rw [← hplen]
              exact getElem?_append_shift pre1 _ j
          _ = cols[impl.columns_id_without_handle.length + j]? :=
              List.getElem?_drop cols _ j
      have hmidlen : (pre1 ++
          cols.drop impl.columns_id_without_handle.length).length =
          cols.length := by
        simp only [List.length_append, List.length_drop]
        omega
      cases hst : impl.decode_handle_strategy with
      | NoDecode =>
        rw [hst] at hres
        dsimp only at hres
        simp only [Prod.mk.injEq, true_and] at hres
        subst hres
        refine ⟨?_, ?_, ?_, hmidlen⟩
        · intro i hi
          obtain ⟨rows, bs, h1, h2⟩ := hpref i hi
          exact ⟨rows, bs, h1, by rw [hmid i hi]; exact h2⟩
        · intro hc
          cases hc
        · intro hc
          cases hc
      | DecodeIntHandle =>
        rw [hst] at hres
        dsimp only at hres
        have hmain : ∃ h, pushIntAt
            (pre1 ++ cols.drop impl.columns_id_without_handle.length)
            impl.columns_id_without_handle.length h = (.ok, cols') := by
          by_cases hrem : rem1 = []
          · rw [if_pos hrem] at hres
            rcases hdec : decode_handle_from_value value with h | m | m <;>
              rw [hdec] at hres
            · exact ⟨h, hres⟩
            · simp at hres
            · simp at hres
          · rw [if_neg hrem] at hres
            rcases hdec : decode_handle_from_key rem1 with h | m | m <;>
              rw [hdec] at hres
            · exact ⟨h, hres⟩
            · simp at hres
            · simp at hres
        obtain ⟨h, hpush⟩ := hmain
        obtain ⟨old, hold, hset⟩ := pushIntAt_ok _ _ h _ hpush
        have hklt : impl.columns_id_without_handle.length <
            (pre1 ++ cols.drop impl.columns_id_without_handle.length).length := by
          rw [List.getElem?_eq_some] at hold
          exact hold.1
        refine ⟨?_, ?_, ?_, ?_⟩
        · intro i hi
          obtain ⟨rows, bs, h1, h2⟩ := hpref i hi
          refine ⟨rows, bs, h1, ?_⟩
          rw [hset, List.getElem?_set_ne (by omega), hmid i hi]
          exact h2
        · intro _
          refine ⟨old, h, ?_, ?_⟩
          · rw [← hold]
            have := hmidk 0
            simpa using this.symm
          · rw [hset, List.getElem?_set_self hklt]
        · intro hc
          cases hc
        · rw [hset]
          simp only [List.length_set]
          exact hmidlen
      | DecodeCommonHandle =>
        rw [hst] at hres
        dsimp only at hres
        by_cases hk1 : impl.columns_id_without_handle.length ≤
            (pre1 ++ cols.drop impl.columns_id_without_handle.length).length
        · rw [if_pos hk1] at hres
          rcases hch : extract_columns_from_datum_format rem1
              ((pre1 ++ cols.drop impl.columns_id_without_handle.length).drop
                impl.columns_id_without_handle.length)
            with ⟨st2, rem2, suf1⟩
          rw [hch] at hres
          cases st2 with
          | err m => simp at hres
          | fatal m => simp at hres
          | ok =>
            simp only [Prod.mk.injEq, true_and] at hres
            subst hres
            have htklen : ((pre1 ++
                cols.drop impl.columns_id_without_handle.length).take
                  impl.columns_id_without_handle.length).length =
                impl.columns_id_without_handle.length := by
              simp only [List.length_take]
              omega
            have hsuflen := edf_length rem1
              ((pre1 ++ cols.drop impl.columns_id_without_handle.length).drop
                impl.columns_id_without_handle.length)
            rw [hch] at hsuflen
            simp only [List.length_drop] at hsuflen
            refine ⟨?_, ?_, ?_, ?_⟩
            · intro i hi
              obtain ⟨rows, bs, h1, h2⟩ := hpref i hi
              refine ⟨rows, bs, h1, ?_⟩
              rw [getElem?_append_left_of_lt _ _ i (by omega),
                getElem?_take_of_lt _ _ i hi, hmid i hi]
              exact h2
            · intro hc
              cases hc
            · intro _ j hj
              obtain ⟨rows, bs, h1, h2⟩ := edf_ok rem1
                ((pre1 ++ cols.drop impl.columns_id_without_handle.length).drop
                  impl.columns_id_without_handle.length) rem2 suf1 hch j
                (by simp only [List.length_drop]; omega)
              rw [List.getElem?_drop, hmidk j] at h1
              refine ⟨rows, bs, h1, ?_⟩
              have := getElem?_append_shift
                ((pre1 ++ cols.drop impl.columns_id_without_handle.length).take
                  impl.columns_id_without_handle.length) suf1 j
              rw [htklen] at this
              rw [this]
              exact h2
            · simp only [List.length_append, List.length_take]
              omega
        · rw [if_neg hk1] at hres
          simp at hres
  · simp [process_old_collation_kv, hkle] at hres

/-- A successful new-collation decode appends exactly one raw span to
every interested container, one decoded handle under IntHandle, and one
raw span to every trailing container under DecodeCommonHandle, keeping
the batch size. -/
theorem nc_ok (D : RowFormatDecoder) (impl : IndexScanExecutorImpl)
    (kp value : Bytes) (cols cols' : List LazyBatchColumn)
    (hres : process_new_collation_kv D impl kp value cols = (.ok, cols')) :
    (∀ i, i < impl.columns_id_without_handle.length →
      ∃ rows bs, cols[i]? = some (.raw rows) ∧
        cols'[i]? = some (.raw (rows ++ [bs]))) ∧
    (impl.decode_handle_strategy = .DecodeIntHandle →
      ∃ old h, cols[impl.columns_id_without_handle.length]? =
          some (.decodedInt old) ∧
        cols'[impl.columns_id_without_handle.length]? =
          some (.decodedInt (old ++ [some h]))) ∧
    (impl.decode_handle_strategy = .DecodeCommonHandle →
      ∀ j, impl.columns_id_without_handle.length + j < cols.length →
        ∃ rows bs, cols[impl.columns_id_without_handle.length + j]? =
            some (.raw rows) ∧
          cols'[impl.columns_id_without_handle.length + j]? =
            some (.raw (rows ++ [bs]))) ∧
    cols'.length = cols.length := by
  rcases hv0 : value[0]? with _ | t
  · simp [process_new_collation_kv, hv0] at hres
  · simp only [process_new_collation_kv, hv0] at hres
    by_cases hgt : t > value.length
    · rw [if_pos hgt] at hres
      simp at hres
    · rw [if_neg hgt] at hres
      by_cases heq : t = value.length
      · rw [if_pos heq] at hres
        simp at hres
      · rw [if_neg heq] at hres
        rcases hex : extract_columns_from_row_format D
            ((value.drop 1).take (value.length - t - 1))
            impl.columns_id_without_handle cols with ⟨st1, cols1⟩
        try rw [hex] at hres
        cases st1 with
        | err m => simp at hres
        | fatal m => simp at hres
        | ok =>
          have hclen : cols1.length = cols.length := by
            have := ecrf_length D ((value.drop 1).take (value.length - t - 1))
              impl.columns_id_without_handle cols
            rw [hex] at this
            exact this
          have hcdrop : cols1.drop impl.columns_id_without_handle.length =
              cols.drop impl.columns_id_without_handle.length := by
            have := ecrf_drop D ((value.drop 1).take (value.length - t - 1))
              impl.columns_id_without_handle cols
            rw [hex] at this
            exact this
          obtain ⟨tbl, hD, hgo⟩ := ecrf_ok D
            ((value.drop 1).take (value.length - t - 1))
            impl.columns_id_without_handle cols cols1 hex
          have hpref : ∀ i, i < impl.columns_id_without_handle.length →
              ∃ rows bs, cols[i]? = some (.raw rows) ∧
                cols1[i]? = some (.raw (rows ++ [bs])) :=
            fun i hi => erg_ok tbl impl.columns_id_without_handle cols cols1
              hgo i hi
          have hmidk : ∀ j,
              cols1[impl.columns_id_without_handle.length + j]? =
                cols[impl.columns_id_without_handle.length + j]? := by
            intro j
            calc cols1[impl.columns_id_without_handle.length + j]?
                = (cols1.drop impl.columns_id_without_handle.length)[j]? :=
                  (List.getElem?_drop cols1 _ j).symm
              _ = (cols.drop impl.columns_id_without_handle.length)[j]? := by
                  rw [hcdrop]
              _ = cols[impl.columns_id_without_handle.length + j]? :=
                  List.getElem?_drop cols _ j
          cases hst : impl.decode_handle_strategy with
          | NoDecode =>
            rw [hst] at hres
            dsimp only at hres
            simp only [Prod.mk.injEq, true_and] at hres
            subst hres
            refine ⟨hpref, ?_, ?_, hclen⟩
            · intro hc
              cases hc
            · intro hc
              cases hc
          | DecodeIntHandle =>
            rw [hst] at hres
            dsimp only at hres
            have hmain : ∃ h, pushIntAt cols1
                impl.columns_id_without_handle.length h = (.ok, cols') := by
              by_cases h8 : t < 8
              · rw [if_pos h8] at hres
                rcases hskip : skip_n kp impl.columns_id_without_handle.length
                  with m | rest <;> try rw [hskip] at hres
                all_goals try dsimp only at hres
                · simp at hres
                · rcases hdec : decode_handle_from_key rest with h | m | m <;>
                    try rw [hdec] at hres
                  · exact ⟨h, hres⟩
                  · simp at hres
                  · simp at hres
              · rw [if_neg h8] at hres
                rcases hdec : decode_handle_from_value
                    (value.drop (value.length - t)) with h | m | m <;>
                  try rw [hdec] at hres
                · exact ⟨h, hres⟩
                · simp at hres
                · simp at hres
            obtain ⟨h, hpush⟩ := hmain
            obtain ⟨old, hold, hset⟩ := pushIntAt_ok _ _ h _ hpush
            have hklt : impl.columns_id_without_handle.length < cols1.length := by
              rw [List.getElem?_eq_some] at hold
              exact hold.1
            refine ⟨?_, ?_, ?_, ?_⟩
            · intro i hi
              obtain ⟨rows, bs, h1, h2⟩ := hpref i hi
              refine ⟨rows, bs, h1, ?_⟩
              rw [hset, List.getElem?_set_ne (by omega)]
              exact h2
            · intro _
              refine ⟨old, h, ?_, ?_⟩
              · rw [← hold]
                have := hmidk 0
                simpa using this.symm
              · rw [hset, List.getElem?_set_self hklt]
            · intro hc
              cases hc
            · rw [hset]
              simp only [List.length_set]
              exact hclen
          | DecodeCommonHandle =>
            rw [hst] at hres
            dsimp only at hres
            rcases hskip : skip_n kp impl.columns_id_without_handle.length
              with m | rest <;> try rw [hskip] at hres
            all_goals try dsimp only at hres
            · simp at hres
            · by_cases hk1 : impl.columns_id_without_handle.length ≤
                  cols1.length
              · rw [if_pos hk1] at hres
                rcases hch : extract_columns_from_datum_format rest
                    (cols1.drop impl.columns_id_without_handle.length)
                  with ⟨st2, rem2, suf1⟩
                try rw [hch] at hres
                cases st2 with
                | err m => simp at hres
                | fatal m => simp at hres
                | ok =>
                  simp only [Prod.mk.injEq, true_and] at hres
                  subst hres
                  have htklen : (cols1.take
                      impl.columns_id_without_handle.length).length =
                      impl.columns_id_without_handle.length := by
                    simp only [List.length_take]
                    omega
                  have hsuflen := edf_length rest
                    (cols1.drop impl.columns_id_without_handle.length)
                  rw [hch] at hsuflen
                  simp only [List.length_drop] at hsuflen
                  refine ⟨?_, ?_, ?_, ?_⟩
                  · intro i hi
                    obtain ⟨rows, bs, h1, h2⟩ := hpref i hi
                    refine ⟨rows, bs, h1, ?_⟩
                    rw [getElem?_append_left_of_lt _ _ i (by omega),
                      getElem?_take_of_lt _ _ i hi]
                    exact h2
                  · intro hc
                    cases hc
                  · intro _ j hj
                    obtain ⟨rows, bs, h1, h2⟩ := edf_ok rest
                      (cols1.drop impl.columns_id_without_handle.length) rem2
                      suf1 hch j (by simp only [List.length_drop]; omega)
                    rw [List.getElem?_drop, hmidk j] at h1
                    refine ⟨rows, bs, h1, ?_⟩
                    have := getElem?_append_shift
                      (cols1.take impl.columns_id_without_handle.length) suf1 j
                    rw [htklen] at this
                    rw [this]
                    exact h2
                  · simp only [List.length_append, List.length_take]
                    omega
              · rw [if_neg hk1] at hres
                simp at hres

/-- A successful unique-common-handle decode appends exactly one raw
span to every interested container and one raw span to every trailing
(handle) container, keeping the batch size. -/
theorem uch_ok (D : RowFormatDecoder) (impl : IndexScanExecutorImpl)
    (kp value : Bytes) (cols cols' : List LazyBatchColumn)
    (hres : process_unique_common_handle_kv D impl kp value cols =
      (.ok, cols')) :
    (∀ i, i < impl.columns_id_without_handle.length →
      ∃ rows bs, cols[i]? = some (.raw rows) ∧
        cols'[i]? = some (.raw (rows ++ [bs]))) ∧
    (∀ j, impl.columns_id_without_handle.length + j < cols.length →
      ∃ rows bs, cols[impl.columns_id_without_handle.length + j]? =
          some (.raw rows) ∧
        cols'[impl.columns_id_without_handle.length + j]? =
          some (.raw (rows ++ [bs]))) ∧
    cols'.length = cols.length := by
  rcases hu16 : read_u16 (value.drop 2) with m | hl
  · simp only [process_unique_common_handle_kv] at hres
    try simp only [hu16] at hres
    simp at hres
  · simp only [process_unique_common_handle_kv] at hres
    try simp only [hu16] at hres
    by_cases hbig : 4 + hl > value.length
    · rw [if_pos hbig] at hres
      simp at hres
    · rw [if_neg hbig] at hres
      by_cases hlt : 4 + hl < value.length
      · rcases hex : extract_columns_from_row_format D (value.drop (4 + hl))
            impl.columns_id_without_handle cols with ⟨st1, cols1⟩
        rw [if_pos hlt] at hres
        try rw [hex] at hres
        try dsimp only at hres
        cases st1 with
        | err m => simp at hres
        | fatal m => simp at hres
        | ok =>
          have hclen : cols1.length = cols.length := by
            have := ecrf_length D (value.drop (4 + hl))
              impl.columns_id_without_handle cols
            rw [hex] at this
            exact this
          have hcdrop : cols1.drop impl.columns_id_without_handle.length =
              cols.drop impl.columns_id_without_handle.length := by
            have := ecrf_drop D (value.drop (4 + hl))
              impl.columns_id_without_handle cols
            rw [hex] at this
            exact this
          obtain ⟨tbl, hD, hgo⟩ := ecrf_ok D (value.drop (4 + hl))
            impl.columns_id_without_handle cols cols1 hex
          have hpref : ∀ i, i < impl.columns_id_without_handle.length →
              ∃ rows bs, cols[i]? = some (.raw rows) ∧
                cols1[i]? = some (.raw (rows ++ [bs])) :=
            fun i hi => erg_ok tbl impl.columns_id_without_handle cols cols1
              hgo i hi
          have hmidk : ∀ j,
              cols1[impl.columns_id_without_handle.length + j]? =
                cols[impl.columns_id_without_handle.length + j]? := by
            intro j
            calc cols1[impl.columns_id_without_handle.length + j]?
                = (cols1.drop impl.columns_id_without_handle.length)[j]? :=
                  (List.getElem?_drop cols1 _ j).symm
              _ = (cols.drop impl.columns_id_without_handle.length)[j]? := by
                  rw [hcdrop]
              _ = cols[impl.columns_id_without_handle.length + j]? :=
                  List.getElem?_drop cols _ j
          by_cases hk1 : impl.columns_id_without_handle.length ≤ cols1.length
          · rw [if_pos hk1] at hres
            rcases hch : extract_columns_from_datum_format
                ((value.drop 4).take (4 + hl - 4))
                (cols1.drop impl.columns_id_without_handle.length)
              with ⟨st2, rem2, suf1⟩
            try rw [hch] at hres
            cases st2 with
            | err m => simp at hres
            | fatal m => simp at hres
            | ok =>
              simp only [Prod.mk.injEq, true_and] at hres
              subst hres
              have htklen : (cols1.take
                  impl.columns_id_without_handle.length).length =
                  impl.columns_id_without_handle.length := by
                simp only [List.length_take]
                omega
              have hsuflen := edf_length ((value.drop 4).take (4 + hl - 4))
                (cols1.drop impl.columns_id_without_handle.length)
              rw [hch] at hsuflen
              simp only [List.length_drop] at hsuflen
              refine ⟨?_, ?_, ?_⟩
              · intro i hi
                obtain ⟨rows, bs, h1, h2⟩ := hpref i hi
                refine ⟨rows, bs, h1, ?_⟩
                rw [getElem?_append_left_of_lt _ _ i (by omega),
                  getElem?_take_of_lt _ _ i hi]
                exact h2
              · intro j hj
                obtain ⟨rows, bs, h1, h2⟩ := edf_ok
                  ((value.drop 4).take (4 + hl - 4))
                  (cols1.drop impl.columns_id_without_handle.length) rem2
                  suf1 hch j (by simp only [List.length_drop]; omega)
                rw [List.getElem?_drop, hmidk j] at h1
                refine ⟨rows, bs, h1, ?_⟩
                have := getElem?_append_shift
                  (cols1.take impl.columns_id_without_handle.length) suf1 j
                rw [htklen] at this
                rw [this]
                exact h2
              · simp only [List.length_append, List.length_take]
                omega
          · rw [if_neg hk1] at hres
            simp at hres
      · rw [if_neg hlt] at hres
        by_cases hkle : impl.columns_id_without_handle.length ≤ cols.length
        · rw [if_pos hkle] at hres
          rcases hpre : extract_columns_from_datum_format kp
              (cols.take impl.columns_id_without_handle.length)
            with ⟨st1, rem1, pre1⟩
          try rw [hpre] at hres
          try dsimp only at hres
          cases st1 with
          | err m => simp at hres
          | fatal m => simp at hres
          | ok =>
            have hplen : pre1.length =
                impl.columns_id_without_handle.length := by
              have := edf_length kp
                (cols.take impl.columns_id_without_handle.length)
              rw [hpre] at this
              simp only [List.length_take] at this
              omega
            have hpref : ∀ i, i < impl.columns_id_without_handle.length →
                ∃ rows bs, cols[i]? = some (.raw rows) ∧
                  pre1[i]? = some (.raw (rows ++ [bs])) := by
              intro i hi
              obtain ⟨rows, bs, h1, h2⟩ := edf_ok kp
                (cols.take impl.columns_id_without_handle.length) rem1 pre1
                hpre i (by simp [List.length_take]; omega)
              rw [getElem?_take_of_lt cols
                impl.columns_id_without_handle.length i hi] at h1
              exact ⟨rows, bs, h1, h2⟩
            have hmid : ∀ i, i < impl.columns_id_without_handle.length →
                (pre1 ++ cols.drop impl.columns_id_without_handle.length)[i]? =
                  pre1[i]? := by
              intro i hi
              exact getElem?_append_left_of_lt pre1 _ i (by omega)
            have hmidk : ∀ j, (pre1 ++
                cols.drop impl.columns_id_without_handle.length)[
                  impl.columns_id_without_handle.length + j]? =
                cols[impl.columns_id_without_handle.length + j]? := by
              intro j
              calc (pre1 ++ cols.drop impl.columns_id_without_handle.length)[
                    impl.columns_id_without_handle.length + j]?
                  = (cols.drop impl.columns_id_without_handle.length)[j]? := by
                    rw [← hplen]
                    exact getElem?_append_shift pre1 _ j
                _ = cols[impl.columns_id_without_handle.length + j]? :=
                    List.getElem?_drop cols _ j
            have hmidlen : (pre1 ++
                cols.drop impl.columns_id_without_handle.length).length =
                cols.length := by
              simp only [List.length_append, List.length_drop]
              omega
            by_cases hk1 : impl.columns_id_without_handle.length ≤
                (pre1 ++ cols.drop impl.columns_id_without_handle.length).length
            · rw [if_pos hk1] at hres
              rcases hch : extract_columns_from_datum_format
                  ((value.drop 4).take (4 + hl - 4))
                  ((pre1 ++
                    cols.drop impl.columns_id_without_handle.length).drop
                    impl.columns_id_without_handle.length)
                with ⟨st2, rem2, suf1⟩
              try rw [hch] at hres
              cases st2 with
              | err m => simp at hres
              | fatal m => simp at hres
              | ok =>
                simp only [Prod.mk.injEq, true_and] at hres
                subst hres
                have htklen : ((pre1 ++
                    cols.drop impl.columns_id_without_handle.length).take
                      impl.columns_id_without_handle.length).length =
                    impl.columns_id_without_handle.length := by
                  simp only [List.length_take]
                  omega
                have hsuflen := edf_length ((value.drop 4).take (4 + hl - 4))
                  ((pre1 ++
                    cols.drop impl.columns_id_without_handle.length).drop
                    impl.columns_id_without_handle.length)
                rw [hch] at hsuflen
                simp only [List.length_drop] at hsuflen
                refine ⟨?_, ?_, ?_⟩
                · intro i hi
                  obtain ⟨rows, bs, h1, h2⟩ := hpref i hi
                  refine ⟨rows, bs, h1, ?_⟩
                  rw [getElem?_append_left_of_lt _ _ i (by omega),
                    getElem?_take_of_lt _ _ i hi, hmid i hi]
                  exact h2
                · intro j hj
                  obtain ⟨rows, bs, h1, h2⟩ := edf_ok
                    ((value.drop 4).take (4 + hl - 4))
                    ((pre1 ++
                      cols.drop impl.columns_id_without_handle.length).drop
                      impl.columns_id_without_handle.length) rem2 suf1 hch j
                    (by simp only [List.length_drop]; omega)
                  rw [List.getElem?_drop, hmidk j] at h1
                  refine ⟨rows, bs, h1, ?_⟩
                  have := getElem?_append_shift
                    ((pre1 ++
                      cols.drop impl.columns_id_without_handle.length).take
                      impl.columns_id_without_handle.length) suf1 j
                  rw [htklen] at this
                  rw [this]
                  exact h2
                · simp only [List.length_append, List.length_take]
                  omega
            · rw [if_neg hk1] at hres
              simp at hres
        · rw [if_neg hkle] at hres
          simp at hres

/-- Conversion of the per-path growth facts into the fresh-batch form:
starting from empty containers of the right kinds, a successful decode
leaves singleton containers everywhere it wrote. -/
theorem c8_convert (impl : IndexScanExecutorImpl)
    (cols cols' : List LazyBatchColumn)
    (hbidx : ∀ i, i < impl.columns_id_without_handle.length →
      cols[i]? = some (.raw []))
    (hallraw : impl.decode_handle_strategy ≠ .DecodeIntHandle →
      ∀ c ∈ cols, c = .raw [])
    (hbk : impl.decode_handle_strategy = .DecodeIntHandle →
      cols[impl.columns_id_without_handle.length]? = some (.decodedInt []))
    (hlen : impl.decode_handle_strategy = .DecodeIntHandle →
      impl.columns_id_without_handle.length + 1 = cols.length)
    (hpre : ∀ i, i < impl.columns_id_without_handle.length →
      ∃ rows bs, cols[i]? = some (.raw rows) ∧
        cols'[i]? = some (.raw (rows ++ [bs])))
    (hint : impl.decode_handle_strategy = .DecodeIntHandle →
      ∃ old h, cols[impl.columns_id_without_handle.length]? =
          some (.decodedInt old) ∧
        cols'[impl.columns_id_without_handle.length]? =
          some (.decodedInt (old ++ [some h])))
    (hcomm : impl.decode_handle_strategy = .DecodeCommonHandle →
      ∀ j, impl.columns_id_without_handle.length + j < cols.length →
        ∃ rows bs, cols[impl.columns_id_without_handle.length + j]? =
            some (.raw rows) ∧
          cols'[impl.columns_id_without_handle.length + j]? =
            some (.raw (rows ++ [bs])))
    (hlen2 : cols'.length = cols.length) :
    (∀ i, i < impl.columns_id_without_handle.length →
      ∃ bs, cols'[i]? = some (.raw [bs])) ∧
    (impl.decode_handle_strategy = .DecodeIntHandle →
      ∃ h : Int, cols'.getLast? = some (.decodedInt [some h])) ∧
    (impl.decode_handle_strategy = .DecodeCommonHandle →
      ∀ i, impl.columns_id_without_handle.length ≤ i → i < cols'.length →
        ∃ bs, cols'[i]? = some (.raw [bs])) := by
  refine ⟨?_, ?_, ?_⟩
  · intro i hi
    obtain ⟨rows, bs, h1, h2⟩ := hpre i hi
    have hrows : rows = [] := by
      have hb := hbidx i hi
      rw [h1] at hb
      have := Option.some.inj hb
      cases this
      rfl
    subst hrows
    exact ⟨bs, by simpa using h2⟩
  · intro hst
    obtain ⟨old, h, h1, h2⟩ := hint hst
    have hold : old = [] := by
      have hb := hbk hst
      rw [h1] at hb
      have := Option.some.inj hb
      cases this
      rfl
    subst hold
    refine ⟨h, ?_⟩
    rw [List.getLast?_eq_getElem?, hlen2, ← hlen hst]
    simpa using h2
  · intro hst i hki hilt
    obtain ⟨rows, bs, h1, h2⟩ := hcomm hst (i - impl.columns_id_without_handle.length)
      (by omega)
    have hieq : impl.columns_id_without_handle.length +
        (i - impl.columns_id_without_handle.length) = i := by omega
    rw [hieq] at h1 h2
    have hrows : rows = [] := by
      have hmem := List.getElem?_mem h1
      have := hallraw (by rw [hst]; simp) _ hmem
      cases this
      rfl
    subst hrows
    exact ⟨bs, by simpa using h2⟩

/-- C8: a constructed executor's batch has one container per schema
column — raw and empty for every interested column, a decoded Int
container as the last one exactly under IntHandle, all raw otherwise —
and a successful process_kv_pair on a fresh batch appends exactly one
raw span per index column, one eagerly decoded integer as the handle
(under IntHandle), and one raw span per common-handle column. -/
theorem c8_column_containers (ci : List ColumnInfo) (plen : Nat)
    (impl : IndexScanExecutorImpl)
    (hnew : BatchIndexScanExecutor.new ci plen = .ok impl) (n : Nat) :
    (build_column_vec impl n).length = ci.length ∧
    (∀ i, i < impl.columns_id_without_handle.length →
      (build_column_vec impl n)[i]? = some (.raw [])) ∧
    (impl.decode_handle_strategy = .DecodeIntHandle →
      (build_column_vec impl n).getLast? = some (.decodedInt [])) ∧
    (impl.decode_handle_strategy ≠ .DecodeIntHandle →
      ∀ c ∈ build_column_vec impl n, c = .raw []) ∧
    (∀ (D : RowFormatDecoder) (key value : Bytes)
      (cols' : List LazyBatchColumn),
      process_kv_pair D impl key value (build_column_vec impl n) =
        (.ok, cols') →
      (∀ i, i < impl.columns_id_without_handle.length →
        ∃ bs, cols'[i]? = some (.raw [bs])) ∧
      (impl.decode_handle_strategy = .DecodeIntHandle →
        ∃ h : Int, cols'.getLast? = some (.decodedInt [some h])) ∧
      (impl.decode_handle_strategy = .DecodeCommonHandle →
        ∀ i, impl.columns_id_without_handle.length ≤ i → i < cols'.length →
          ∃ bs, cols'[i]? = some (.raw [bs]))) := by
  obtain ⟨hschema, hno, hint2, hcom⟩ := new_ok_facts ci plen impl hnew
  have hblen : (build_column_vec impl n).length = ci.length := by
    cases hst : impl.decode_handle_strategy with
    | NoDecode =>
      simp only [build_column_vec, hst, List.length_replicate]
      exact hno hst
    | DecodeIntHandle =>
      have h := hint2 hst
      simp only [build_column_vec, hst, List.length_append,
        List.length_replicate]
      simpa using h
    | DecodeCommonHandle =>
      have h := hcom hst
      simp only [build_column_vec, hst, List.length_append,
        List.length_replicate]
      omega
  have hbidx : ∀ i, i < impl.columns_id_without_handle.length →
      (build_column_vec impl n)[i]? = some (.raw []) := by
    intro i hi
    cases hst : impl.decode_handle_strategy with
    | NoDecode =>
      simp [build_column_vec, hst, List.getElem?_replicate, hi]
    | DecodeIntHandle =>
      simp only [build_column_vec, hst]
      rw [getElem?_append_left_of_lt _ _ i (by simpa using hi)]
      simp [List.getElem?_replicate, hi]
    | DecodeCommonHandle =>
      simp only [build_column_vec, hst]
      rw [getElem?_append_left_of_lt _ _ i (by simpa using hi)]
      simp [List.getElem?_replicate, hi]
  have hblast : impl.decode_handle_strategy = .DecodeIntHandle →
      (build_column_vec impl n).getLast? = some (.decodedInt []) := by
    intro hst
    simp only [build_column_vec, hst]
    exact List.getLast?_concat _
  have hballraw : impl.decode_handle_strategy ≠ .DecodeIntHandle →
      ∀ c ∈ build_column_vec impl n, c = .raw [] := by
    intro hne c hc
    cases hst : impl.decode_handle_strategy with
    | NoDecode =>
      simp only [build_column_vec, hst] at hc
      exact List.eq_of_mem_replicate hc
    | DecodeIntHandle => exact absurd hst hne
    | DecodeCommonHandle =>
      simp only [build_column_vec, hst, List.mem_append] at hc
      rcases hc with hc | hc <;> exact List.eq_of_mem_replicate hc
  have hbk : impl.decode_handle_strategy = .DecodeIntHandle →
      (build_column_vec impl n)[impl.columns_id_without_handle.length]? =
        some (.decodedInt []) := by
    intro hst
    simp only [build_column_vec, hst]
    have h0 := getElem?_append_shift
      (List.replicate impl.columns_id_without_handle.length
        (LazyBatchColumn.raw []))
      [LazyBatchColumn.decodedInt []] 0
    simp only [List.length_replicate, Nat.add_zero] at h0
    rw [h0]
    rfl
  have hbklen : impl.decode_handle_strategy = .DecodeIntHandle →
      impl.columns_id_without_handle.length + 1 =
        (build_column_vec impl n).length := by
    intro hst
    rw [hblen]
    exact hint2 hst
  refine ⟨hblen, hbidx, hblast, hballraw, ?_⟩
  intro D key value cols' hproc
  by_cases hkey : check_index_key key = true
  · by_cases hklen : key.length < PREFIX_LEN + ID_LEN
    · simp [process_kv_pair, hkey, hklen] at hproc
    · have hklen2 : PREFIX_LEN + ID_LEN ≤ key.length := by omega
      by_cases hvlen : value.length > MAX_OLD_ENCODED_VALUE_LEN
      · rcases hv0 : value[0]? with _ | b0
        · simp [process_kv_pair, hkey, hklen, hvlen, hv0] at hproc
        · rcases hv1 : value[1]? with _ | b1
          · simp [process_kv_pair, hkey, hklen, hvlen, hv0, hv1] at hproc
          · by_cases hpat : b0 ≤ 1 ∧ b1 = INDEX_VALUE_COMMON_HANDLE_FLAG
            · by_cases hstrat : impl.decode_handle_strategy = .DecodeCommonHandle
              · rw [process_kv_pair_uch_dispatch D impl key value b0 b1 _
                  hkey hklen2 hvlen hv0 hv1 hpat.1 hpat.2 hstrat] at hproc
                obtain ⟨hp, hc, hl⟩ := uch_ok D impl _ value _ cols' hproc
                exact c8_convert impl _ cols' hbidx hballraw hbk hbklen hp
                  (fun hc2 => absurd hc2 (by rw [hstrat]; simp))
                  (fun _ => hc) hl
              · simp only [process_kv_pair, hkey, if_true, if_neg hklen,
                  if_pos hvlen, hv0, hv1, if_pos hpat, if_pos hstrat] at hproc
                simp at hproc
            · rw [process_kv_pair_new_dispatch D impl key value b0 b1 _
                hkey hklen2 hvlen hv0 hv1 hpat] at hproc
              obtain ⟨hp, hi, hc, hl⟩ := nc_ok D impl _ value _ cols' hproc
              exact c8_convert impl _ cols' hbidx hballraw hbk hbklen hp hi hc hl
      · have hvle : value.length ≤ MAX_OLD_ENCODED_VALUE_LEN := by omega
        rw [process_kv_pair_old_dispatch D impl key value _ hkey hklen2
          hvle] at hproc
        obtain ⟨hp, hi, hc, hl⟩ := oc_ok impl _ value _ cols' hproc
        exact c8_convert impl _ cols' hbidx hballraw hbk hbklen hp hi hc hl
  · simp [process_kv_pair, hkey] at hproc

/-- C8 witness: the single-column IntHandle schema — the fresh batch
is one empty decoded container, and processing a concrete unique
old-collation pair fills it with one decoded handle. -/
theorem c8_witness :
    (build_column_vec
      { schemaLen := 1, columns_id_without_handle := [],
        decode_handle_strategy := .DecodeIntHandle } 1).length = 1 ∧
    (∀ i, i < ([] : List Int).length →
      (build_column_vec
        { schemaLen := 1, columns_id_without_handle := [],
          decode_handle_strategy := .DecodeIntHandle } 1)[i]? =
        some (.raw [])) ∧
    (DecodeHandleStrategy.DecodeIntHandle = .DecodeIntHandle →
      (build_column_vec
        { schemaLen := 1, columns_id_without_handle := [],
          decode_handle_strategy := .DecodeIntHandle } 1).getLast? =
        some (.decodedInt [])) ∧
    (DecodeHandleStrategy.DecodeIntHandle ≠ .DecodeIntHandle →
      ∀ c ∈ build_column_vec
        { schemaLen := 1, columns_id_without_handle := [],
          decode_handle_strategy := .DecodeIntHandle } 1, c = .raw []) ∧
    (∀ (D : RowFormatDecoder) (key value : Bytes)
      (cols' : List LazyBatchColumn),
      process_kv_pair D
        { schemaLen := 1, columns_id_without_handle := [],
          decode_handle_strategy := .DecodeIntHandle }
        key value
        (build_column_vec
          { schemaLen := 1, columns_id_without_handle := [],
            decode_handle_strategy := .DecodeIntHandle } 1) = (.ok, cols') →
      (∀ i, i < ([] : List Int).length →
        ∃ bs, cols'[i]? = some (.raw [bs])) ∧
      (DecodeHandleStrategy.DecodeIntHandle = .DecodeIntHandle →
        ∃ h : Int, cols'.getLast? = some (.decodedInt [some h])) ∧
      (DecodeHandleStrategy.DecodeIntHandle = .DecodeCommonHandle →
        ∀ i, ([] : List Int).length ≤ i → i < cols'.length →
          ∃ bs, cols'[i]? = some (.raw [bs]))) :=
  c8_column_containers [⟨1, true⟩] 0
    { schemaLen := 1, columns_id_without_handle := [],
      decode_handle_strategy := .DecodeIntHandle }
    (by rfl) 1

end IndexScan
